import Mathlib

/-!
Verification development for the collaborative-editing synchronization core
(`collab.ts`): the client-side merge engine `receiveUpdates`, the server-side
rebase engine `rebaseUpdates`, the unconfirmed-queue state field, and the
accessors `sendableUpdates` / `getSyncedVersion`.

The change-script type (`ChangeSet` / `ChangeDesc`) and the shared-effect type
(`StateEffect`) are external primitives owned by the host text engine; the
source uses them only through `compose` / `composeDesc`, `map` / `mapDesc`
(with a boolean tie-break flag), `ChangeSet.empty(length)`, `.empty`, and
`StateEffect.mapEffects` (map each effect, dropping the ones that map to
null).  We therefore embed the algorithms parametrically over a record of
those operations, and use a free (purely symbolic) instance to evaluate them
on concrete inputs.
-/

namespace Collab

/-- The operations the source invokes on the external change-script type `C`
and shared-effect type `E`:
* `compose a b` embeds `a.compose(b)` / `a.composeDesc(b)`;
* `mapCh a b before` embeds `a.map(b, before)` / `a.mapDesc(b, before)`;
* `emptyOf c` embeds `ChangeSet.empty(c.length)` (the identity script on the
  start document of `c`);
* `isEmpty c` embeds `c.empty`;
* `mapEffect e c` embeds `e.map(c)`, returning `none` when the effect is
  annihilated by the mapping. -/
structure OTAlg (C E : Type) where
  compose : C → C → C
  mapCh : C → C → Bool → C
  emptyOf : C → C
  isEmpty : C → Bool
  mapEffect : E → C → Option E

/-- An update: a change script, optional effects (the absent field is embedded
as the empty list), and the ID of the client that created it. -/
structure Update (C E : Type) where
  changes : C
  effects : List E
  clientID : String
deriving DecidableEq, Repr

/-- A `LocalUpdate`: an update plus a back-reference to the transaction that
produced it (`origin`, embedded as an opaque number, never inspected). -/
structure LocalUpdate (C E : Type) where
  origin : Nat
  changes : C
  effects : List E
  clientID : String
deriving DecidableEq, Repr

/-- The collab state field value: confirmed version plus the queue of local
updates not yet acknowledged by the authority. -/
structure CollabState (C E : Type) where
  version : Nat
  unconfirmed : List (LocalUpdate C E)
deriving DecidableEq, Repr

/-- Embeds `StateEffect.mapEffects(effects, mapping)`: map every effect over
`mapping`, dropping those that map to null. -/
def mapEffects {C E : Type} (A : OTAlg C E) (effects : List E) (mapping : C) : List E :=
  effects.filterMap (fun e => A.mapEffect e mapping)

/-- Embeds `sendableUpdates`: the unconfirmed queue, verbatim. -/
def sendableUpdates {C E : Type} (st : CollabState C E) : List (LocalUpdate C E) :=
  st.unconfirmed

/-- Embeds `getSyncedVersion`: the stored version of the collab field. -/
def getSyncedVersion {C E : Type} (st : CollabState C E) : Nat :=
  st.version

/-! ### The merge engine `receiveUpdates` -/

/-- The foreign branch of the batch loop in `receiveUpdates`:
`effects = mapEffects(effects, update.changes)`, then concatenate
`update.effects`, and compose `update.changes` into the aggregate
(`changes ? changes.compose(update.changes) : update.changes`). -/
def receiveStepForeign {C E : Type} (A : OTAlg C E)
    (acc : Nat × Option C × List E) (update : Update C E) : Nat × Option C × List E :=
  (acc.1,
   some (match acc.2.1 with
         | some ch => A.compose ch update.changes
         | none => update.changes),
   mapEffects A acc.2.2 update.changes ++ update.effects)

/-- One iteration of the batch loop in `receiveUpdates`.  The accumulator is
`(own, changes, effects)`; `ours` is `unconfirmed[own]` when in range.  When
`ours` exists and its client ID equals the update's, the update is this
client's own echo: `if (changes) changes = changes.map(ours.changes, true)`,
`effects = mapEffects(effects, update.changes)`, `own++`.  Otherwise the
foreign branch runs. -/
def receiveStep {C E : Type} (A : OTAlg C E) (unconfirmed : List (LocalUpdate C E))
    (acc : Nat × Option C × List E) (update : Update C E) : Nat × Option C × List E :=
  match unconfirmed[acc.1]? with
  | some ours =>
      if ours.clientID = update.clientID then
        (acc.1 + 1,
         acc.2.1.map (fun ch => A.mapCh ch ours.changes true),
         mapEffects A acc.2.2 update.changes)
      else receiveStepForeign A acc update
  | none => receiveStepForeign A acc update

/-- The batch loop of `receiveUpdates`, started from
`own = 0`, `changes = null`, `effects = []`. -/
def receiveFolded {C E : Type} (A : OTAlg C E) (unconfirmed : List (LocalUpdate C E))
    (updates : List (Update C E)) : Nat × Option C × List E :=
  updates.foldl (receiveStep A unconfirmed) (0, none, [])

/-- The rebase pass of `receiveUpdates` over the surviving unconfirmed queue
(`unconfirmed.map(...)` with the mutable `changes` threaded through):
each update's changes are mapped over the running script (`update.changes.map
(changes)`), the running script is updated by `changes.map(update.changes,
true)`, and the update's effects are mapped over the updated running script.
The rebuilt `LocalUpdate` keeps `origin` and takes the configured client ID.
Returns the rebased queue together with the final running script. -/
def rebaseUnconfirmed {C E : Type} (A : OTAlg C E) (clientID : String) :
    List (LocalUpdate C E) → C → List (LocalUpdate C E) × C
  | [], ch => ([], ch)
  | u :: rest, ch =>
      let updateChanges := A.mapCh u.changes ch false
      let ch2 := A.mapCh ch u.changes true
      let r := rebaseUnconfirmed A clientID rest ch2
      (⟨u.origin, updateChanges, mapEffects A u.effects ch2, clientID⟩ :: r.1, r.2)

/-- The result of `receiveUpdates`, i.e. the transaction spec it hands to
`state.update`: the optional document change, the effects, the
`addToHistory` and `remote` annotations (absent on the metadata-only branch),
the `filter` flag (`true` is the host default, the mutation branch passes
`filter: false`), and the new collab field value carried by the
`collabReceive` annotation. -/
structure TrSpec (C E : Type) where
  changes : Option C
  effects : List E
  addToHistory : Option Bool
  remote : Option Bool
  filter : Bool
  syncState : CollabState C E
deriving DecidableEq, Repr

/-- The trimmed-then-rebased unconfirmed queue of `receiveUpdates`, paired
with the final aggregate script (`null` propagates unchanged; the rebase pass
only runs on a non-null aggregate and a non-empty queue). -/
def receiveRebased {C E : Type} (A : OTAlg C E) (clientID : String)
    (st : CollabState C E) (updates : List (Update C E)) :
    List (LocalUpdate C E) × Option C :=
  let folded := receiveFolded A st.unconfirmed updates
  let unconfirmed := st.unconfirmed.drop folded.1
  if unconfirmed.length ≠ 0 then
    match folded.2.1 with
    | some ch =>
        let r := rebaseUnconfirmed A clientID unconfirmed ch
        (r.1, some r.2)
    | none => (unconfirmed, none)
  else (unconfirmed, folded.2.1)

/-- The final effects of `receiveUpdates`: when the surviving queue is
non-empty and the accumulated effects are non-empty, the effects are re-mapped
over the left-to-right composition of the rebased queue's change scripts,
seeded with the identity script on the first rebased update's start document
(`unconfirmed.reduce((ch, u) => ch.compose(u.changes), ChangeSet.empty(...))`). -/
def receiveEffects {C E : Type} (A : OTAlg C E) (clientID : String)
    (st : CollabState C E) (updates : List (Update C E)) : List E :=
  let folded := receiveFolded A st.unconfirmed updates
  let rebased := (receiveRebased A clientID st updates).1
  match rebased with
  | [] => folded.2.2
  | u0 :: _ =>
      if folded.2.2.length ≠ 0 then
        let composed := rebased.foldl (fun ch u => A.compose ch u.changes) (A.emptyOf u0.changes)
        mapEffects A folded.2.2 composed
      else folded.2.2

/-- Embeds `receiveUpdates(state, updates)`.  The version always advances by
the length of the batch.  If the aggregate foreign script is null, the result
is a metadata-only transition (no change, no effects, no history/remote
annotations, default filtering) recording the new collab state; otherwise it
is one document mutation carrying the (rebased) aggregate script and the
(re-mapped) effects, with `addToHistory: false`, `remote: true`,
`filter: false`. -/
def receiveUpdates {C E : Type} (A : OTAlg C E) (clientID : String)
    (st : CollabState C E) (updates : List (Update C E)) : TrSpec C E :=
  let version := st.version + updates.length
  let rebased := receiveRebased A clientID st updates
  match rebased.2 with
  | none =>
      { changes := none, effects := [], addToHistory := none, remote := none,
        filter := true, syncState := ⟨version, rebased.1⟩ }
  | some ch =>
      { changes := some ch, effects := receiveEffects A clientID st updates,
        addToHistory := some false, remote := some true,
        filter := false, syncState := ⟨version, rebased.1⟩ }

/-! ### The server rebase engine `rebaseUpdates` -/

/-- An entry of the `over` argument of `rebaseUpdates`: a change desc and a
client ID (effect payloads are not consulted). -/
structure OverUpdate (C : Type) where
  changes : C
  clientID : String
deriving DecidableEq, Repr

/-- One iteration of the deduplication loop in `rebaseUpdates`.  The
accumulator is `(changes, skip)`; `other` is `updates[skip]` when in range.
When `other` exists and its client ID equals the over-entry's, this is a
resubmission race: `if (changes) changes = changes.mapDesc(other.changes,
true)` and `skip++`.  Otherwise the over-entry's changes are composed into the
aggregate. -/
def rebaseStep {C E : Type} (A : OTAlg C E) (updates : List (Update C E))
    (acc : Option C × Nat) (update : OverUpdate C) : Option C × Nat :=
  match updates[acc.2]? with
  | some other =>
      if other.clientID = update.clientID then
        (acc.1.map (fun ch => A.mapCh ch other.changes true), acc.2 + 1)
      else
        (some (match acc.1 with
               | some ch => A.compose ch update.changes
               | none => update.changes), acc.2)
  | none =>
      (some (match acc.1 with
             | some ch => A.compose ch update.changes
             | none => update.changes), acc.2)

/-- The rebase pass of `rebaseUpdates` over the surviving updates
(`updates.map(...)` with the mutable `changes` threaded through): identical
alternation to the client-side pass, except the rebuilt update keeps its own
client ID.  Returns the rebased updates together with the final running
script. -/
def rebaseRemaining {C E : Type} (A : OTAlg C E) :
    List (Update C E) → C → List (Update C E) × C
  | [], ch => ([], ch)
  | u :: rest, ch =>
      let updateChanges := A.mapCh u.changes ch false
      let ch2 := A.mapCh ch u.changes true
      let r := rebaseRemaining A rest ch2
      (⟨updateChanges, mapEffects A u.effects ch2, u.clientID⟩ :: r.1, r.2)

/-- Embeds `rebaseUpdates(updates, over)`: return `updates` unchanged when
either argument is empty; otherwise run the deduplication loop, drop the
`skip` already-accepted updates, and, when the aggregate script is non-null,
rebase the remaining updates over it. -/
def rebaseUpdates {C E : Type} (A : OTAlg C E)
    (updates : List (Update C E)) (over : List (OverUpdate C)) : List (Update C E) :=
  if over.length = 0 ∨ updates.length = 0 then updates
  else
    let folded := over.foldl (rebaseStep A updates) (none, 0)
    let remaining := updates.drop folded.2
    match folded.1 with
    | none => remaining
    | some ch => (rebaseRemaining A remaining ch).1

/-! ### The collab state field -/

/-- A committed host transaction, as the collab field's `update` function
sees it: an opaque identity (for `origin`), its change script, the effects the
configured `sharedEffects` function returns for it, and the `collabReceive`
annotation when the transaction was produced by `receiveUpdates`. -/
structure LocalTr (C E : Type) where
  id : Nat
  changes : C
  sharedEffects : List E
  isSync : Option (CollabState C E)
deriving DecidableEq, Repr

/-- Embeds the `update` function of the collab state field: a sync
transaction installs the carried state; otherwise, when the shared effects or
the change script are non-empty, one `LocalUpdate` is appended to the
unconfirmed queue (version unchanged); otherwise the state is returned
unchanged. -/
def collabFieldUpdate {C E : Type} (A : OTAlg C E) (clientID : String)
    (collab : CollabState C E) (tr : LocalTr C E) : CollabState C E :=
  match tr.isSync with
  | some s => s
  | none =>
      if tr.sharedEffects.length ≠ 0 ∨ A.isEmpty tr.changes = false then
        ⟨collab.version, collab.unconfirmed ++ [⟨tr.id, tr.changes, tr.sharedEffects, clientID⟩]⟩
      else collab

/-! ### A free symbolic instance of the external primitives

Change scripts and effects are opaque to the algorithms, so a free term
model — where every operation is a constructor — is a legitimate instance:
it distinguishes exactly the computations the algorithms perform. -/

/-- Free change scripts: base scripts plus formal `compose`, `map` and
`empty-of` nodes. -/
inductive SymC where
  | base (s : String)
  | comp (a b : SymC)
  | mapped (a b : SymC) (before : Bool)
  | emptyOf (a : SymC)
deriving DecidableEq, Repr

/-- Free shared effects: base effects plus formal `map` nodes. -/
inductive SymE where
  | base (s : String)
  | mapped (e : SymE) (c : SymC)
deriving DecidableEq, Repr

/-- The free instance of the external primitives: every operation is a
constructor, `isEmpty` holds exactly for the base script named `""`, and
effect mapping never annihilates. -/
def symAlg : OTAlg SymC SymE where
  compose := SymC.comp
  mapCh := SymC.mapped
  emptyOf := SymC.emptyOf
  isEmpty := fun c => c = SymC.base ""
  mapEffect := fun e c => some (SymE.mapped e c)

/-! ### Recurrences used to state claim C4 -/

/-- The step-5 rebase recurrence exactly as claim C4 words it, on
`(changes, effects)` pairs: each update's changes are mapped over the running
foreign script with the `false` flag, the running script is then remapped over
the update's original changes with the mirrored `true` flag, and the update's
effects are mapped over "the same script that was used to rebase v's changes",
i.e. the PRE-update running script. -/
def step5Claimed {C E : Type} (A : OTAlg C E) : List (C × List E) → C → List (C × List E)
  | [], _ => []
  | (c, es) :: rest, ch =>
      (A.mapCh c ch false, mapEffects A es ch) ::
        step5Claimed A rest (A.mapCh ch c true)

/-- The step-5 rebase recurrence as both engines implement it, on
`(changes, effects)` pairs: identical to `step5Claimed` except that each
update's effects are mapped over the UPDATED running script — the one that
already accounts for that update's own original changes. -/
def step5Amended {C E : Type} (A : OTAlg C E) : List (C × List E) → C → List (C × List E)
  | [], _ => []
  | (c, es) :: rest, ch =>
      (A.mapCh c ch false, mapEffects A es (A.mapCh ch c true)) ::
        step5Amended A rest (A.mapCh ch c true)

/-! ### The protocol model for the convergence claim

The document type and the application of a change script to a document are
owned by the host text engine; the spec assumes those primitives correct
(associative composition, deterministic side-parameterised rebase).  We
therefore state convergence for every implementation of the primitives
satisfying the two correctness laws the merge algorithm relies on, and the
participant/authority machinery below mirrors the repository's own test
harness: `send` pushes `sendableUpdates` (rebased with `rebaseUpdates` when
the synced version is behind the log), `receive` folds the contiguous log
slice from the synced version with `receiveUpdates`. -/

/-- Modelled from the spec: the correctness assumptions on the external
change-script primitives ("assumed correct, associative"): applying a
composition equals applying sequentially; the two mirrored rebase directions
of `map` close the square (an edit followed by the other edit rebased over it,
with the `true`/`false` tie-break flags the source uses, reaches the same
document either way); applying an empty change script leaves the document
unchanged. -/
structure OTLaws {C E D : Type} (A : OTAlg C E) (ap : D → C → D) : Prop where
  ap_compose : ∀ d a b, ap d (A.compose a b) = ap (ap d a) b
  ap_square : ∀ d f c, ap (ap d f) (A.mapCh c f false) = ap (ap d c) (A.mapCh f c true)
  ap_empty : ∀ d c, A.isEmpty c = true → ap d c = d

/-- Fold a list of change scripts over a document, left to right. -/
def applyFold {C D : Type} (ap : D → C → D) (d : D) (cs : List C) : D :=
  cs.foldl ap d

/-- Apply an optional change script (the merge engine's nullable aggregate). -/
def applyOpt {C D : Type} (ap : D → C → D) (d : D) : Option C → D
  | some c => ap d c
  | none => d

/-- The alternating rebase recurrence on bare change scripts (the change-level
content of `rebaseUnconfirmed` / `rebaseRemaining`): each script is mapped
over the running script with the `false` flag and the running script is
remapped over the original with the `true` flag. -/
def rebaseChanges {C E : Type} (A : OTAlg C E) : List C → C → List C × C
  | [], x => ([], x)
  | c :: q, x =>
      let r := rebaseChanges A q (A.mapCh x c true)
      (A.mapCh c x false :: r.1, r.2)

/-- The queue a client is left with after folding an aggregate: unchanged when
the aggregate is null, alternately rebased otherwise. -/
def tailRebase {C E : Type} (A : OTAlg C E) (q : List C) : Option C → List C
  | some x => (rebaseChanges A q x).1
  | none => q

/-- Reference form of the deduplication/merge loop shared by `receiveUpdates`
and `rebaseUpdates`, on bare change scripts: walk the authoritative entries in
order; an entry matching the queue head (same client) consumes the head and
remaps the aggregate over it with the `true` flag; any other entry is composed
into the aggregate.  Returns how many queue entries were consumed and the
final aggregate. -/
def mergeLoop {C E : Type} (A : OTAlg C E) (cid : String) :
    List C → Option C → List (OverUpdate C) → Nat × Option C
  | _, F, [] => (0, F)
  | q, F, u :: S =>
      match q with
      | c :: q2 =>
          if u.clientID = cid then
            let r := mergeLoop A cid q2 (F.map (fun x => A.mapCh x c true)) S
            (r.1 + 1, r.2)
          else
            mergeLoop A cid (c :: q2) (some (match F with
              | some x => A.compose x u.changes
              | none => u.changes)) S
      | [] =>
          mergeLoop A cid [] (some (match F with
            | some x => A.compose x u.changes
            | none => u.changes)) S

/-- The simulation invariant between a client's unconfirmed queue (as bare
change scripts) and the authoritative log slice it has not folded yet: every
log entry from this client is exactly the current form of the next queue
element (the stored script mapped over the pending foreign aggregate, with the
`false` flag), and foreign entries accumulate into the aggregate exactly as
the merge loop accumulates them. -/
def MergeOK {C E : Type} (A : OTAlg C E) (cid : String) :
    List C → Option C → List (OverUpdate C) → Prop
  | _, _, [] => True
  | q, F, u :: S =>
      if u.clientID = cid then
        match q with
        | [] => False
        | c :: q2 =>
            u.changes = (match F with
              | some x => A.mapCh c x false
              | none => c) ∧
            MergeOK A cid q2 (F.map (fun x => A.mapCh x c true)) S
      else
        MergeOK A cid q (some (match F with
          | some x => A.compose x u.changes
          | none => u.changes)) S

/-- Forget a local update's transaction back-reference (a client sends its
unconfirmed queue as plain updates). -/
def LocalUpdate.toUpdate {C E : Type} (u : LocalUpdate C E) : Update C E :=
  ⟨u.changes, u.effects, u.clientID⟩

/-- Restrict a log entry to the shape `rebaseUpdates` consumes (change desc
and client ID). -/
def Update.toOver {C E : Type} (u : Update C E) : OverUpdate C :=
  ⟨u.changes, u.clientID⟩

/-- A participant: its configured client ID, its collab field value, and its
host document. -/
structure PState (C E D : Type) where
  clientID : String
  collab : CollabState C E
  doc : D
deriving DecidableEq, Repr

/-- The whole collaboration system: the authority's append-only log and the
participants. -/
structure Sys (C E D : Type) where
  log : List (Update C E)
  peers : List (PState C E D)

/-- A local edit by participant `i`: the host commits a transaction with the
given change script and derived shared effects; the collab field update
captures it and the document advances. -/
def editSys {C E D : Type} (A : OTAlg C E) (ap : D → C → D) (sys : Sys C E D)
    (i trid : Nat) (ch : C) (effects : List E) : Sys C E D :=
  match sys.peers[i]? with
  | none => sys
  | some p =>
      let p2 := { p with
        collab := collabFieldUpdate A p.clientID p.collab ⟨trid, ch, effects, none⟩,
        doc := ap p.doc ch }
      { sys with peers := sys.peers.set i p2 }

/-- Participant `i` sends to the authority, exactly as the repository's test
harness does: take `sendableUpdates`, rebase them with `rebaseUpdates` over
the log slice past the synced version whenever that version is behind the log
length, and append the result (if any) to the log. -/
def sendSys {C E D : Type} (A : OTAlg C E) (sys : Sys C E D) (i : Nat) : Sys C E D :=
  match sys.peers[i]? with
  | none => sys
  | some p =>
      let version := getSyncedVersion p.collab
      let sendable := (sendableUpdates p.collab).map LocalUpdate.toUpdate
      let sendable := if version ≠ sys.log.length then
          rebaseUpdates A sendable ((sys.log.drop version).map Update.toOver)
        else sendable
      if sendable.length = 0 then sys
      else { sys with log := sys.log ++ sendable }

/-- Participant `i` receives from the authority, exactly as the repository's
test harness does: when the synced version is behind the log, fold the
contiguous slice from that version with `receiveUpdates`, install the new sync
state and apply the returned document change (if any). -/
def recvSys {C E D : Type} (A : OTAlg C E) (ap : D → C → D) (sys : Sys C E D)
    (i : Nat) : Sys C E D :=
  match sys.peers[i]? with
  | none => sys
  | some p =>
      if p.collab.version < sys.log.length then
        let spec := receiveUpdates A p.clientID p.collab (sys.log.drop p.collab.version)
        let p2 := { p with collab := spec.syncState, doc := applyOpt ap p.doc spec.changes }
        { sys with peers := sys.peers.set i p2 }
      else sys

/-- A protocol event: a local edit, a send, or a receive. -/
inductive Ev (C E : Type) where
  | edit (i trid : Nat) (ch : C) (effects : List E)
  | send (i : Nat)
  | recv (i : Nat)

/-- Run one event. -/
def stepSys {C E D : Type} (A : OTAlg C E) (ap : D → C → D) (sys : Sys C E D) :
    Ev C E → Sys C E D
  | .edit i trid ch es => editSys A ap sys i trid ch es
  | .send i => sendSys A sys i
  | .recv i => recvSys A ap sys i

/-- Run a schedule of events. -/
def runSys {C E D : Type} (A : OTAlg C E) (ap : D → C → D) (sys : Sys C E D)
    (evs : List (Ev C E)) : Sys C E D :=
  evs.foldl (stepSys A ap) sys

/-- The initial system: the log is empty and every participant starts from the
same document with version 0 and an empty unconfirmed queue. -/
def initSys {C E D : Type} (cids : List String) (d0 : D) : Sys C E D :=
  ⟨[], cids.map (fun cid => ⟨cid, ⟨0, []⟩, d0⟩)⟩

/-- The closing round of the protocol: every participant sends its remaining
updates, then every participant receives the full log. -/
def finalSync {C E D : Type} (A : OTAlg C E) (ap : D → C → D) (sys : Sys C E D) :
    Sys C E D :=
  let sys2 := (List.range sys.peers.length).foldl (sendSys A) sys
  (List.range sys2.peers.length).foldl (recvSys A ap) sys2

/-- The per-participant simulation invariant: the synced version is inside the
log, the unconfirmed queue belongs to this participant, the document is the
base document folded through the seen log prefix and then the stored queue,
and the unseen log slice stands in the `MergeOK` relation to the stored
queue. -/
structure PeerInv {C E D : Type} (A : OTAlg C E) (ap : D → C → D) (d0 : D)
    (log : List (Update C E)) (p : PState C E D) : Prop where
  version_le : p.collab.version ≤ log.length
  queue_cid : ∀ u ∈ p.collab.unconfirmed, u.clientID = p.clientID
  doc_eq : p.doc = applyFold ap
      (applyFold ap d0 ((log.take p.collab.version).map (fun u => u.changes)))
      (p.collab.unconfirmed.map (fun u => u.changes))
  merge_ok : MergeOK A p.clientID (p.collab.unconfirmed.map (fun u => u.changes)) none
      ((log.drop p.collab.version).map Update.toOver)

/-- The system invariant: client IDs are pairwise distinct and every
participant satisfies the per-participant invariant. -/
structure SysInv {C E D : Type} (A : OTAlg C E) (ap : D → C → D) (d0 : D)
    (sys : Sys C E D) : Prop where
  nodup : (sys.peers.map (fun p => p.clientID)).Nodup
  peer_inv : ∀ i (h : i < sys.peers.length), PeerInv A ap d0 sys.log sys.peers[i]

/-- A participant has everything in flight: the unseen log slice carries
exactly as many of its own entries as its unconfirmed queue holds. -/
def FullySent {C E D : Type} (log : List (Update C E)) (p : PState C E D) : Prop :=
  (log.drop p.collab.version).countP (fun u => u.clientID = p.clientID) =
    p.collab.unconfirmed.length

/-- A small concrete instance of the external primitives used to exercise the
convergence theorem: documents and change scripts are numbers, application
and composition are addition, and rebasing a script leaves it unchanged. -/
def natAlg : OTAlg Nat Unit where
  compose := fun a b => a + b
  mapCh := fun a _ _ => a
  emptyOf := fun _ => 0
  isEmpty := fun c => c == 0
  mapEffect := fun e _ => some e

/-- Applying a numeric change script adds it to the document. -/
def natAp (d c : Nat) : Nat := d + c

end Collab

namespace Collab

/-! ### Helper lemmas -/

/-- The own-queue cursor never leaves the bounds of the unconfirmed queue:
one loop iteration keeps `own ≤ length unconfirmed`. -/
theorem receiveStep_own_le {C E : Type} (A : OTAlg C E)
    (unconfirmed : List (LocalUpdate C E)) (acc : Nat × Option C × List E)
    (update : Update C E) (h : acc.1 ≤ unconfirmed.length) :
    (receiveStep A unconfirmed acc update).1 ≤ unconfirmed.length := by
  unfold receiveStep
  cases hx : unconfirmed[acc.1]? with
  | none => exact h
  | some ours =>
      by_cases hc : ours.clientID = update.clientID
      · simp only [hc, if_true]
        exact Nat.succ_le_of_lt (List.getElem?_eq_some.mp hx).1
      · simp only [hc, if_false]
        exact h

/-- The whole batch loop keeps the own-queue cursor in bounds. -/
theorem receiveFolded_own_le {C E : Type} (A : OTAlg C E)
    (unconfirmed : List (LocalUpdate C E)) (updates : List (Update C E)) :
    (receiveFolded A unconfirmed updates).1 ≤ unconfirmed.length := by
  unfold receiveFolded
  have aux : ∀ (us : List (Update C E)) (acc : Nat × Option C × List E),
      acc.1 ≤ unconfirmed.length →
      (us.foldl (receiveStep A unconfirmed) acc).1 ≤ unconfirmed.length := by
    intro us
    induction us with
    | nil => intro acc h; exact h
    | cons u rest ih =>
        intro acc h
        exact ih _ (receiveStep_own_le A unconfirmed acc u h)
  exact aux updates (0, none, []) (Nat.zero_le _)

/-- The skip cursor of the deduplication loop never leaves the bounds of the
client's update list. -/
theorem rebaseStep_skip_le {C E : Type} (A : OTAlg C E)
    (updates : List (Update C E)) (acc : Option C × Nat) (update : OverUpdate C)
    (h : acc.2 ≤ updates.length) :
    (rebaseStep A updates acc update).2 ≤ updates.length := by
  unfold rebaseStep
  cases hx : updates[acc.2]? with
  | none => exact h
  | some other =>
      by_cases hc : other.clientID = update.clientID
      · simp only [hc, if_true]
        exact Nat.succ_le_of_lt (List.getElem?_eq_some.mp hx).1
      · simp only [hc, if_false]
        exact h

/-- The whole deduplication loop keeps the skip cursor in bounds. -/
theorem rebaseFolded_skip_le {C E : Type} (A : OTAlg C E)
    (updates : List (Update C E)) (over : List (OverUpdate C)) :
    (over.foldl (rebaseStep A updates) (none, 0)).2 ≤ updates.length := by
  have aux : ∀ (os : List (OverUpdate C)) (acc : Option C × Nat),
      acc.2 ≤ updates.length →
      (os.foldl (rebaseStep A updates) acc).2 ≤ updates.length := by
    intro os
    induction os with
    | nil => intro acc h; exact h
    | cons o rest ih =>
        intro acc h
        exact ih _ (rebaseStep_skip_le A updates acc o h)
  exact aux over (none, 0) (Nat.zero_le _)

/-- The client-side rebase pass keeps every update's `origin` back-reference,
in order. -/
theorem rebaseUnconfirmed_map_origin {C E : Type} (A : OTAlg C E) (clientID : String) :
    ∀ (q : List (LocalUpdate C E)) (ch : C),
      ((rebaseUnconfirmed A clientID q ch).1).map (fun u => u.origin) =
        q.map (fun u => u.origin)
  | [], _ => rfl
  | u :: rest, ch => by
      simp [rebaseUnconfirmed, rebaseUnconfirmed_map_origin A clientID rest]

/-- The server-side rebase pass keeps every update's client ID, in order. -/
theorem rebaseRemaining_map_clientID {C E : Type} (A : OTAlg C E) :
    ∀ (q : List (Update C E)) (ch : C),
      ((rebaseRemaining A q ch).1).map (fun u => u.clientID) =
        q.map (fun u => u.clientID)
  | [], _ => rfl
  | u :: rest, ch => by
      simp [rebaseRemaining, rebaseRemaining_map_clientID A rest]

/-- Both branches of `receiveUpdates` record the same sync state: the
advanced version together with the trimmed-then-rebased queue. -/
theorem receiveUpdates_syncState {C E : Type} (A : OTAlg C E) (clientID : String)
    (st : CollabState C E) (updates : List (Update C E)) :
    (receiveUpdates A clientID st updates).syncState =
      ⟨st.version + updates.length, (receiveRebased A clientID st updates).1⟩ := by
  unfold receiveUpdates
  cases h : (receiveRebased A clientID st updates).2 <;> simp [h]

/-- The queue produced by `receiveRebased` projects through `origin` to the
input queue minus its confirmed prefix. -/
theorem receiveRebased_map_origin {C E : Type} (A : OTAlg C E) (clientID : String)
    (st : CollabState C E) (updates : List (Update C E)) :
    ((receiveRebased A clientID st updates).1).map (fun u => u.origin) =
      (st.unconfirmed.drop (receiveFolded A st.unconfirmed updates).1).map
        (fun u => u.origin) := by
  simp only [receiveRebased]
  split
  · split
    · exact rebaseUnconfirmed_map_origin A clientID _ _
    · rfl
  · rfl

/-! ### C5: empty batches are defined no-ops -/

/-- Claim C5: empty batches are defined no-ops.  `receiveUpdates(state, [])`
is a metadata-only transition whose resulting version and unconfirmed queue
equal the input's, and `rebaseUpdates([], over)` and
`rebaseUpdates(updates, [])` return the `updates` argument unchanged. -/
theorem receive_rebase_empty_batches {C E : Type} (A : OTAlg C E) (clientID : String)
    (st : CollabState C E) (updates : List (Update C E)) (over : List (OverUpdate C)) :
    receiveUpdates A clientID st [] =
      { changes := none, effects := [], addToHistory := none, remote := none,
        filter := true, syncState := ⟨st.version, st.unconfirmed⟩ } ∧
    rebaseUpdates A [] over = [] ∧
    rebaseUpdates A updates [] = updates := by
  refine ⟨?_, ?_, ?_⟩
  · simp [receiveUpdates, receiveRebased, receiveFolded]
  · simp [rebaseUpdates]
  · simp [rebaseUpdates]

/-! ### C6: the version always advances by the batch length -/

/-- Claim C6: for every state and batch, the sync state produced by
`receiveUpdates` has version `state.version + length(updates)` — on both the
metadata-only and the mutation branch, so regardless of how many updates were
own echoes — and `getSyncedVersion` returns exactly the stored version. -/
theorem receive_version_adds_batch_length {C E : Type} (A : OTAlg C E) (clientID : String)
    (st st2 : CollabState C E) (updates : List (Update C E)) :
    (receiveUpdates A clientID st updates).syncState.version =
      st.version + updates.length ∧
    getSyncedVersion st2 = st2.version := by
  constructor
  · rw [receiveUpdates_syncState]
  · rfl

/-! ### C10: a null aggregate script forces an empty aggregate effect list -/

/-- One loop iteration preserves the invariant "if the aggregate script is
still null, the aggregate effect list is empty": effects are only appended in
the foreign branch, which makes the aggregate script non-null for good. -/
theorem receiveStep_none_no_effects {C E : Type} (A : OTAlg C E)
    (unconfirmed : List (LocalUpdate C E)) (acc : Nat × Option C × List E)
    (update : Update C E) (h : acc.2.1 = none → acc.2.2 = []) :
    (receiveStep A unconfirmed acc update).2.1 = none →
    (receiveStep A unconfirmed acc update).2.2 = [] := by
  unfold receiveStep receiveStepForeign
  cases hx : unconfirmed[acc.1]? with
  | none => simp
  | some ours =>
      by_cases hc : ours.clientID = update.clientID
      · simp only [hc, if_true]
        intro hnone
        cases hacc : acc.2.1 with
        | some ch => rw [hacc] at hnone; simp at hnone
        | none => simp [h hacc, mapEffects]
      · simp [hc]

/-- Claim C10: if the batch loop of `receiveUpdates` ends with a null
aggregate change script (every update was classified as an own echo), the
aggregate effect list is empty as well, so the metadata-only branch never
discards received shared effects. -/
theorem receiveFolded_none_changes_no_effects {C E : Type} (A : OTAlg C E)
    (unconfirmed : List (LocalUpdate C E)) (updates : List (Update C E))
    (h : (receiveFolded A unconfirmed updates).2.1 = none) :
    (receiveFolded A unconfirmed updates).2.2 = [] := by
  unfold receiveFolded at h ⊢
  have aux : ∀ (us : List (Update C E)) (acc : Nat × Option C × List E),
      (acc.2.1 = none → acc.2.2 = []) →
      (us.foldl (receiveStep A unconfirmed) acc).2.1 = none →
      (us.foldl (receiveStep A unconfirmed) acc).2.2 = [] := by
    intro us
    induction us with
    | nil => intro acc h0; exact h0
    | cons u rest ih =>
        intro acc h0
        exact ih _ (receiveStep_none_no_effects A unconfirmed acc u h0)
  exact aux updates (0, none, []) (fun _ => rfl) h

/-- Witness for C10: a batch consisting of a single own echo (which carries a
shared effect the echo branch ignores) leaves the aggregate script null, and
the theorem then forces the aggregate effect list empty. -/
theorem receiveFolded_none_changes_no_effects_witness :
    (receiveFolded symAlg [⟨0, SymC.base "L", [], "a"⟩]
        [⟨SymC.base "U", [SymE.base "x"], "a"⟩]).2.1 = none ∧
    (receiveFolded symAlg [⟨0, SymC.base "L", [], "a"⟩]
        [⟨SymC.base "U", [SymE.base "x"], "a"⟩]).2.2 = [] :=
  ⟨by decide, receiveFolded_none_changes_no_effects symAlg _ _ (by decide)⟩

/-! ### C9: FIFO preservation and suffix trimming -/

/-- Claim C9: both engines only ever drop a confirmed/already-accepted prefix
and keep the survivors in input order: the unconfirmed queue produced by
`receiveUpdates` projects (through the untouched `origin` back-references) to
a suffix of the input queue, and the array returned by `rebaseUpdates`
projects (through the untouched client IDs) to a suffix of the input array —
so two updates from the same participant keep their relative order. -/
theorem fifo_suffix_preserved {C E : Type} (A : OTAlg C E) (clientID : String)
    (st : CollabState C E) (updates : List (Update C E))
    (subs : List (Update C E)) (over : List (OverUpdate C)) :
    (∃ k, k ≤ st.unconfirmed.length ∧
      ((receiveUpdates A clientID st updates).syncState.unconfirmed).map (fun u => u.origin) =
        (st.unconfirmed.drop k).map (fun u => u.origin)) ∧
    (∃ k, k ≤ subs.length ∧
      (rebaseUpdates A subs over).map (fun u => u.clientID) =
        (subs.drop k).map (fun u => u.clientID)) := by
  constructor
  · refine ⟨(receiveFolded A st.unconfirmed updates).1,
      receiveFolded_own_le A st.unconfirmed updates, ?_⟩
    rw [receiveUpdates_syncState]
    exact receiveRebased_map_origin A clientID st updates
  · by_cases hempty : over.length = 0 ∨ subs.length = 0
    · refine ⟨0, Nat.zero_le _, ?_⟩
      simp only [rebaseUpdates, if_pos hempty]
      rfl
    · refine ⟨(over.foldl (rebaseStep A subs) (none, 0)).2,
        rebaseFolded_skip_le A subs over, ?_⟩
      simp only [rebaseUpdates, if_neg hempty]
      split
      · rfl
      · exact rebaseRemaining_map_clientID A _ _

/-! ### C2: what the own-echo branch of `receiveUpdates` does -/

/-- Claim C2, as amended: on an own echo (the cursor is inside the unconfirmed
queue and the head unconfirmed update's client ID equals the update's), the
batch loop advances the cursor, maps the aggregate effect list over the
authoritative `update.changes`, and does not compose `update.changes` into the
aggregate foreign script — but the aggregate foreign script is NOT left
unchanged: when non-null it is remapped over the matched unconfirmed update's
own (locally stored) changes, with the `true` tie-break flag. -/
theorem receiveStep_own_echo {C E : Type} (A : OTAlg C E)
    (unconfirmed : List (LocalUpdate C E)) (own : Nat) (changes : Option C)
    (effects : List E) (update : Update C E) (ours : LocalUpdate C E)
    (h1 : unconfirmed[own]? = some ours) (h2 : ours.clientID = update.clientID) :
    receiveStep A unconfirmed (own, changes, effects) update =
      (own + 1, changes.map (fun ch => A.mapCh ch ours.changes true),
       mapEffects A effects update.changes) := by
  simp [receiveStep, h1, h2]

/-- Witness for C2: the amended description evaluated on a one-update echo
with a non-null aggregate script and one pending effect. -/
theorem receiveStep_own_echo_witness :
    receiveStep symAlg [⟨0, SymC.base "L", [], "a"⟩]
        (0, some (SymC.base "F"), [SymE.base "e"]) ⟨SymC.base "U", [], "a"⟩ =
      (1, some (SymC.mapped (SymC.base "F") (SymC.base "L") true),
       [SymE.mapped (SymE.base "e") (SymC.base "U")]) := by
  have h := receiveStep_own_echo symAlg [⟨0, SymC.base "L", [], "a"⟩] 0
      (some (SymC.base "F")) [SymE.base "e"] ⟨SymC.base "U", [], "a"⟩
      ⟨0, SymC.base "L", [], "a"⟩ (by decide) (by decide)
  exact h.trans (by decide)

/-- Counterexample to claim C2 as stated: at this own-echo step (cursor 0 is
inside the one-entry unconfirmed queue and the client IDs agree) the aggregate
foreign script `F` is not left unchanged — the step remaps it over the
unconfirmed update's changes. -/
theorem receiveStep_own_echo_modifies_aggregate :
    (([⟨0, SymC.base "L", [], "a"⟩] : List (LocalUpdate SymC SymE))[0]? =
       some ⟨0, SymC.base "L", [], "a"⟩) ∧
    ((⟨0, SymC.base "L", [], "a"⟩ : LocalUpdate SymC SymE).clientID =
       (⟨SymC.base "U", [], "a"⟩ : Update SymC SymE).clientID) ∧
    (receiveStep symAlg [⟨0, SymC.base "L", [], "a"⟩]
        (0, some (SymC.base "F"), []) ⟨SymC.base "U", [], "a"⟩).2.1 ≠
      some (SymC.base "F") := by decide

/-! ### C3: what the resubmission-race branch of `rebaseUpdates` does -/

/-- Claim C3, as amended: in the deduplication loop of `rebaseUpdates`, when
the skip cursor is inside `updates` and `updates[skip]` has the same client ID
as the over-entry `o`, the aggregate script is remapped over
`updates[skip].changes` — the CLIENT-submitted change script, not the accepted
authority-side script `o.changes` — and the cursor advances, with `o.changes`
not folded into the aggregate; in every other case `o.changes` is composed
into the aggregate and the cursor stays. -/
theorem rebaseStep_race_cases {C E : Type} (A : OTAlg C E)
    (updates : List (Update C E)) (changes : Option C) (skip : Nat)
    (update : OverUpdate C) :
    (∀ other, updates[skip]? = some other → other.clientID = update.clientID →
      rebaseStep A updates (changes, skip) update =
        (changes.map (fun ch => A.mapCh ch other.changes true), skip + 1)) ∧
    (∀ other, updates[skip]? = some other → other.clientID ≠ update.clientID →
      rebaseStep A updates (changes, skip) update =
        (some (match changes with
               | some ch => A.compose ch update.changes
               | none => update.changes), skip)) ∧
    (updates[skip]? = none →
      rebaseStep A updates (changes, skip) update =
        (some (match changes with
               | some ch => A.compose ch update.changes
               | none => update.changes), skip)) := by
  refine ⟨?_, ?_, ?_⟩
  · intro other h1 h2
    simp [rebaseStep, h1, h2]
  · intro other h1 h2
    simp [rebaseStep, h1, h2]
  · intro h1
    simp [rebaseStep, h1]

/-- Witness for C3: the race branch evaluated where the client-submitted and
accepted scripts differ, plus a foreign over-entry evaluated on the compose
branch. -/
theorem rebaseStep_race_cases_witness :
    rebaseStep symAlg [⟨SymC.base "X", [], "a"⟩]
        (some (SymC.base "C"), 0) ⟨SymC.base "Y", "a"⟩ =
      (some (SymC.mapped (SymC.base "C") (SymC.base "X") true), 1) ∧
    rebaseStep symAlg [⟨SymC.base "X", [], "a"⟩]
        (some (SymC.base "C"), 0) ⟨SymC.base "Z", "b"⟩ =
      (some (SymC.comp (SymC.base "C") (SymC.base "Z")), 0) := by
  constructor
  · have h := (rebaseStep_race_cases symAlg [⟨SymC.base "X", [], "a"⟩]
        (some (SymC.base "C")) 0 ⟨SymC.base "Y", "a"⟩).1
      ⟨SymC.base "X", [], "a"⟩ (by decide) (by decide)
    exact h.trans (by decide)
  · have h := (rebaseStep_race_cases symAlg [⟨SymC.base "X", [], "a"⟩]
        (some (SymC.base "C")) 0 ⟨SymC.base "Z", "b"⟩).2.1
      ⟨SymC.base "X", [], "a"⟩ (by decide) (by decide)
    exact h.trans (by decide)

/-- Counterexample to claim C3 as stated: in a resubmission race where the
accepted authority-side script (`o.changes = Y`) differs from the
client-submitted script (`updates[skip].changes = X`), the aggregate is not
mapped over the accepted script `o.changes`, as the claim says; it is mapped
over the client-submitted one. -/
theorem rebaseStep_race_not_over_accepted :
    (([⟨SymC.base "X", [], "a"⟩] : List (Update SymC SymE))[0]? =
       some ⟨SymC.base "X", [], "a"⟩) ∧
    ((⟨SymC.base "X", [], "a"⟩ : Update SymC SymE).clientID =
       (⟨SymC.base "Y", "a"⟩ : OverUpdate SymC).clientID) ∧
    (rebaseStep symAlg [⟨SymC.base "X", [], "a"⟩]
        (some (SymC.base "C"), 0) ⟨SymC.base "Y", "a"⟩).1 ≠
      some (SymC.mapped (SymC.base "C") (SymC.base "Y") true) := by decide

/-! ### C4: the shared step-5 rebase recurrence of the two engines -/

/-- Claim C4, as amended: for every non-empty remaining queue and foreign
script, both the client-side rebase pass of `receiveUpdates` and the
server-side rebase pass of `rebaseUpdates` rebase the remaining updates by one
and the same recurrence — changes mapped over the running script with the
`false` flag, the running script updated with the mirrored `true` flag, and
each update's effects mapped over the UPDATED running script (not over the
script that was used to rebase that update's changes). -/
theorem step5_both_engines_amended {C E : Type} (A : OTAlg C E) (clientID : String) :
    ∀ (q : List (LocalUpdate C E)) (us : List (Update C E)) (ch : C),
      ((rebaseUnconfirmed A clientID q ch).1).map (fun u => (u.changes, u.effects)) =
        step5Amended A (q.map (fun u => (u.changes, u.effects))) ch ∧
      ((rebaseRemaining A us ch).1).map (fun u => (u.changes, u.effects)) =
        step5Amended A (us.map (fun u => (u.changes, u.effects))) ch := by
  have hq : ∀ (q : List (LocalUpdate C E)) (ch : C),
      ((rebaseUnconfirmed A clientID q ch).1).map (fun u => (u.changes, u.effects)) =
        step5Amended A (q.map (fun u => (u.changes, u.effects))) ch := by
    intro q
    induction q with
    | nil => intro ch; rfl
    | cons u rest ih =>
        intro ch
        simp [rebaseUnconfirmed, step5Amended, ih]
  have hu : ∀ (us : List (Update C E)) (ch : C),
      ((rebaseRemaining A us ch).1).map (fun u => (u.changes, u.effects)) =
        step5Amended A (us.map (fun u => (u.changes, u.effects))) ch := by
    intro us
    induction us with
    | nil => intro ch; rfl
    | cons u rest ih =>
        intro ch
        simp [rebaseRemaining, step5Amended, ih]
  exact fun q us ch => ⟨hq q ch, hu us ch⟩

/-- Counterexample to claim C4 as stated: on a one-update queue carrying one
effect, the client-side rebase pass does not map the effect over the script
that was used to rebase the update's changes (the pre-update running script
`F`); it maps it over the updated script `map(F, v.changes, true)`. -/
theorem step5_effects_not_over_pre_script :
    ((rebaseUnconfirmed symAlg "a"
        [⟨0, SymC.base "v", [SymE.base "e"], "a"⟩] (SymC.base "F")).1).map
          (fun u => (u.changes, u.effects)) ≠
      step5Claimed symAlg [(SymC.base "v", [SymE.base "e"])] (SymC.base "F") := by
  decide

/-! ### C7: metadata-only transition versus one tagged mutation -/

/-- The rebase stage yields a null script exactly when the batch loop did:
rebasing a non-null aggregate keeps it non-null, and a null aggregate is
passed through. -/
theorem receiveRebased_none_iff {C E : Type} (A : OTAlg C E) (clientID : String)
    (st : CollabState C E) (updates : List (Update C E)) :
    (receiveRebased A clientID st updates).2 = none ↔
      (receiveFolded A st.unconfirmed updates).2.1 = none := by
  simp only [receiveRebased]
  split
  · split
    · next ch heq => simp [heq]
    · next heq => simp [heq]
  · exact Iff.rfl

/-- Claim C7: when the aggregate foreign script of the batch loop is null, the
result of `receiveUpdates` is a metadata-only transition — no document change,
no effects, no history or remote annotation, default filtering — carrying only
the new sync state; otherwise it is exactly one document mutation carrying the
(rebased) aggregate script and the accumulated (re-mapped) effects, tagged
`addToHistory: false` (excluded from undo history), `remote: true` (remotely
originated), and `filter: false` (exempt from local change filtering). -/
theorem receive_metadata_or_tagged_mutation {C E : Type} (A : OTAlg C E)
    (clientID : String) (st : CollabState C E) (updates : List (Update C E)) :
    ((receiveFolded A st.unconfirmed updates).2.1 = none →
      receiveUpdates A clientID st updates =
        { changes := none, effects := [], addToHistory := none, remote := none,
          filter := true,
          syncState := ⟨st.version + updates.length,
                        (receiveRebased A clientID st updates).1⟩ }) ∧
    ((receiveFolded A st.unconfirmed updates).2.1 ≠ none →
      ∃ f, receiveUpdates A clientID st updates =
        { changes := some f,
          effects := receiveEffects A clientID st updates,
          addToHistory := some false, remote := some true, filter := false,
          syncState := ⟨st.version + updates.length,
                        (receiveRebased A clientID st updates).1⟩ }) := by
  constructor
  · intro hF
    have h2 : (receiveRebased A clientID st updates).2 = none :=
      (receiveRebased_none_iff A clientID st updates).mpr hF
    unfold receiveUpdates
    simp [h2]
  · intro hF
    cases h2 : (receiveRebased A clientID st updates).2 with
    | none =>
        exact absurd ((receiveRebased_none_iff A clientID st updates).mp h2) hF
    | some f =>
        refine ⟨f, ?_⟩
        unfold receiveUpdates
        simp [h2]

/-- Witness for C7: the metadata-only branch evaluated on an empty batch, and
the mutation branch evaluated on a one-update foreign batch, with both
hypotheses discharged by evaluation. -/
theorem receive_metadata_or_tagged_mutation_witness :
    receiveUpdates symAlg "a" ⟨0, []⟩ [] =
      { changes := none, effects := [], addToHistory := none, remote := none,
        filter := true, syncState := ⟨0, []⟩ } ∧
    (∃ f, receiveUpdates symAlg "a" ⟨0, []⟩ [⟨SymC.base "U", [SymE.base "x"], "b"⟩] =
      { changes := some f, effects := [SymE.base "x"],
        addToHistory := some false, remote := some true, filter := false,
        syncState := ⟨1, []⟩ }) := by
  constructor
  · have h := (receive_metadata_or_tagged_mutation symAlg "a" ⟨0, []⟩ []).1 (by decide)
    exact h.trans (by decide)
  · have h := (receive_metadata_or_tagged_mutation symAlg "a" ⟨0, []⟩
        [⟨SymC.base "U", [SymE.base "x"], "b"⟩]).2 (by decide)
    obtain ⟨f, hf⟩ := h
    refine ⟨f, hf.trans ?_⟩
    have h1 : receiveEffects symAlg "a" ⟨0, []⟩
        [⟨SymC.base "U", [SymE.base "x"], "b"⟩] = [SymE.base "x"] := by decide
    have h2 : (receiveRebased symAlg "a" ⟨0, []⟩
        [⟨SymC.base "U", [SymE.base "x"], "b"⟩]).1 =
        ([] : List (LocalUpdate SymC SymE)) := by decide
    rw [h1, h2]
    simp

/-! ### C8: local-edit capture -/

/-- Claim C8: for a committed local transaction (no sync annotation), if both
its change script and its derived shared effects are empty the collab state is
returned unchanged — same version, same unconfirmed queue — and otherwise
exactly one local update recording the transaction's changes and shared
effects is appended to the end of the unconfirmed queue, with the version
unchanged. -/
theorem collabField_capture {C E : Type} (A : OTAlg C E) (clientID : String)
    (collab : CollabState C E) (tr : LocalTr C E) (hsync : tr.isSync = none) :
    (tr.sharedEffects = [] → A.isEmpty tr.changes = true →
      collabFieldUpdate A clientID collab tr = collab) ∧
    (tr.sharedEffects.length ≠ 0 ∨ A.isEmpty tr.changes = false →
      collabFieldUpdate A clientID collab tr =
        ⟨collab.version,
         collab.unconfirmed ++ [⟨tr.id, tr.changes, tr.sharedEffects, clientID⟩]⟩) := by
  constructor
  · intro he hc
    unfold collabFieldUpdate
    rw [hsync]
    simp [he, hc]
  · intro h
    unfold collabFieldUpdate
    rw [hsync]
    simp only [if_pos h]

/-! ### Merge-loop lemmas for the convergence claim -/

/-- Folding the empty script list is the identity. -/
theorem applyFold_nil {C D : Type} (ap : D → C → D) (d : D) :
    applyFold ap d [] = d := rfl

/-- Folding a cons applies the head then folds the tail. -/
theorem applyFold_cons {C D : Type} (ap : D → C → D) (d : D) (c : C) (cs : List C) :
    applyFold ap d (c :: cs) = applyFold ap (ap d c) cs := rfl

/-- Folding a concatenation folds the parts in order. -/
theorem applyFold_append {C D : Type} (ap : D → C → D) (d : D) (l1 l2 : List C) :
    applyFold ap d (l1 ++ l2) = applyFold ap (applyFold ap d l1) l2 := by
  simp [applyFold, List.foldl_append]

/-- The merge loop never consumes more queue entries than there are. -/
theorem mergeLoop_fst_le {C E : Type} (A : OTAlg C E) (cid : String) :
    ∀ (S : List (OverUpdate C)) (q : List C) (F : Option C),
      (mergeLoop A cid q F S).1 ≤ q.length := by
  intro S
  induction S with
  | nil => intro q F; simp [mergeLoop]
  | cons u S ih =>
      intro q F
      cases q with
      | nil =>
          simpa [mergeLoop] using ih [] _
      | cons c q2 =>
          by_cases hc : u.clientID = cid
          · simpa [mergeLoop, hc] using Nat.succ_le_succ (ih q2 _)
          · simpa [mergeLoop, hc] using ih (c :: q2) _

/-- Under the simulation invariant, the merge loop consumes exactly one queue
entry per authoritative entry carrying this client's ID. -/
theorem mergeLoop_fst_eq_countP {C E : Type} (A : OTAlg C E) (cid : String) :
    ∀ (S : List (OverUpdate C)) (q : List C) (F : Option C),
      MergeOK A cid q F S →
      (mergeLoop A cid q F S).1 = S.countP (fun u => u.clientID = cid) := by
  intro S
  induction S with
  | nil => intro q F _; simp [mergeLoop]
  | cons u S ih =>
      intro q F hM
      by_cases hc : u.clientID = cid
      · cases q with
        | nil => simp [MergeOK, hc] at hM
        | cons c q2 =>
            simp only [MergeOK, hc, if_true] at hM
            simp [mergeLoop, hc, List.countP_cons, ih q2 _ hM.2]
      · cases q with
        | nil =>
            simp only [MergeOK, hc, if_false] at hM
            simp [mergeLoop, hc, List.countP_cons, ih [] _ hM]
        | cons c q2 =>
            simp only [MergeOK, hc, if_false] at hM
            simp [mergeLoop, hc, List.countP_cons, ih (c :: q2) _ hM]

/-- The central semantic fact about the merge loop: under the simulation
invariant, folding the whole authoritative slice over the current base
document reaches the same document as folding the consumed queue prefix and
then the final aggregate. -/
theorem mergeLoop_semantic {C E D : Type} (A : OTAlg C E) (ap : D → C → D)
    (L : OTLaws A ap) (cid : String) :
    ∀ (S : List (OverUpdate C)) (q : List C) (F : Option C) (dm : D),
      MergeOK A cid q F S →
      applyFold ap (applyOpt ap dm F) (S.map (fun u => u.changes)) =
        applyOpt ap (applyFold ap dm (q.take (mergeLoop A cid q F S).1))
          (mergeLoop A cid q F S).2 := by
  intro S
  induction S with
  | nil => intro q F dm _; simp [mergeLoop, applyFold]
  | cons u S ih =>
      intro q F dm hM
      by_cases hc : u.clientID = cid
      · cases q with
        | nil => simp [MergeOK, hc] at hM
        | cons c q2 =>
            simp only [MergeOK, hc, if_true] at hM
            obtain ⟨hu, hM2⟩ := hM
            have key : ap (applyOpt ap dm F) u.changes =
                applyOpt ap (ap dm c) (F.map (fun x => A.mapCh x c true)) := by
              cases F with
              | none => simp [applyOpt, hu]
              | some x =>
                  simp only [applyOpt, Option.map_some']
                  rw [hu]
                  exact L.ap_square dm x c
            have hr := ih q2 (F.map (fun x => A.mapCh x c true)) (ap dm c) hM2
            simp only [mergeLoop, hc, if_true, List.map_cons, applyFold,
              List.foldl_cons, List.take_succ_cons] at hr ⊢
            rw [key]
            exact hr
      · cases q with
        | nil =>
            simp only [MergeOK, hc, if_false] at hM
            cases F with
            | none =>
                have hr := ih [] (some u.changes) dm hM
                simpa only [mergeLoop, hc, if_false, List.map_cons, applyFold,
                  List.foldl_cons, applyOpt] using hr
            | some x =>
                have hr := ih [] (some (A.compose x u.changes)) dm hM
                simp only [mergeLoop, hc, if_false, List.map_cons, applyFold,
                  List.foldl_cons, applyOpt] at hr ⊢
                rw [L.ap_compose dm x u.changes] at hr
                exact hr
        | cons c q2 =>
            simp only [MergeOK, hc, if_false] at hM
            cases F with
            | none =>
                have hr := ih (c :: q2) (some u.changes) dm hM
                simpa only [mergeLoop, hc, if_false, List.map_cons, applyFold,
                  List.foldl_cons, applyOpt] using hr
            | some x =>
                have hr := ih (c :: q2) (some (A.compose x u.changes)) dm hM
                simp only [mergeLoop, hc, if_false, List.map_cons, applyFold,
                  List.foldl_cons, applyOpt] at hr ⊢
                rw [L.ap_compose dm x u.changes] at hr
                exact hr

/-- The alternating rebase pass closes the square: applying the original queue
and then the final running script reaches the same document as applying the
foreign script first and then the rebased queue. -/
theorem rebaseChanges_semantic {C E D : Type} (A : OTAlg C E) (ap : D → C → D)
    (L : OTLaws A ap) :
    ∀ (q : List C) (x : C) (d : D),
      ap (applyFold ap d q) (rebaseChanges A q x).2 =
        applyFold ap (ap d x) (rebaseChanges A q x).1 := by
  intro q
  induction q with
  | nil => intro x d; rfl
  | cons c q ih =>
      intro x d
      simp only [rebaseChanges, applyFold, List.foldl_cons]
      rw [show (List.foldl ap (ap d c) q) = applyFold ap (ap d c) q from rfl]
      rw [ih (A.mapCh x c true) (ap d c)]
      simp only [applyFold]
      rw [← L.ap_square d x c]

/-- A slice made only of other clients' entries satisfies the simulation
invariant vacuously: everything is folded into the aggregate. -/
theorem mergeOK_of_foreign {C E : Type} (A : OTAlg C E) (cid : String) :
    ∀ (T : List (OverUpdate C)) (q : List C) (F : Option C),
      (∀ u ∈ T, u.clientID ≠ cid) → MergeOK A cid q F T := by
  intro T
  induction T with
  | nil => intro q F _; trivial
  | cons u T ih =>
      intro q F hT
      have hc : u.clientID ≠ cid := hT u (by simp)
      cases q with
      | nil =>
          simp only [MergeOK, hc, if_false]
          exact ih [] _ (fun v hv => hT v (by simp [hv]))
      | cons c q2 =>
          simp only [MergeOK, hc, if_false]
          exact ih (c :: q2) _ (fun v hv => hT v (by simp [hv]))

/-- Appending other clients' entries to the end of the slice preserves the
simulation invariant. -/
theorem mergeOK_append_foreign {C E : Type} (A : OTAlg C E) (cid : String) :
    ∀ (S : List (OverUpdate C)) (q : List C) (F : Option C)
      (T : List (OverUpdate C)),
      MergeOK A cid q F S → (∀ u ∈ T, u.clientID ≠ cid) →
      MergeOK A cid q F (S ++ T) := by
  intro S
  induction S with
  | nil => intro q F T _ hT; exact mergeOK_of_foreign A cid T q F hT
  | cons u S ih =>
      intro q F T hM hT
      by_cases hc : u.clientID = cid
      · cases q with
        | nil => simp [MergeOK, hc] at hM
        | cons c q2 =>
            simp only [MergeOK, hc, if_true] at hM ⊢
            exact ⟨hM.1, ih q2 _ T hM.2 hT⟩
      · cases q with
        | nil =>
            simp only [MergeOK, hc, if_false] at hM ⊢
            exact ih [] _ T hM hT
        | cons c q2 =>
            simp only [MergeOK, hc, if_false] at hM ⊢
            exact ih (c :: q2) _ T hM hT

/-- A tail of this client's own entries whose change scripts are exactly the
alternating rebase of the remaining queue over the pending aggregate satisfies
the simulation invariant. -/
theorem mergeOK_of_tail {C E : Type} (A : OTAlg C E) (cid : String) :
    ∀ (T : List (OverUpdate C)) (q : List C) (F : Option C),
      T.map (fun u => u.changes) = tailRebase A q F →
      (∀ u ∈ T, u.clientID = cid) →
      MergeOK A cid q F T := by
  intro T
  induction T with
  | nil => intro q F _ _; trivial
  | cons u T ih =>
      intro q F hch hT
      have hc : u.clientID = cid := hT u (by simp)
      cases q with
      | nil =>
          exfalso
          cases F with
          | none => simp [tailRebase] at hch
          | some x => simp [tailRebase, rebaseChanges] at hch
      | cons c q2 =>
          simp only [MergeOK, hc, if_true]
          cases F with
          | none =>
              simp only [tailRebase, List.map_cons, List.cons.injEq] at hch
              exact ⟨hch.1, ih q2 none (by simp [tailRebase, hch.2])
                (fun v hv => hT v (by simp [hv]))⟩
          | some x =>
              simp only [tailRebase, rebaseChanges, List.map_cons,
                List.cons.injEq] at hch
              refine ⟨hch.1, ?_⟩
              simp only [Option.map_some']
              exact ih q2 (some (A.mapCh x c true))
                (by simp [tailRebase, hch.2])
                (fun v hv => hT v (by simp [hv]))

/-- Appending this client's own rebased remainder to the end of the slice
preserves the simulation invariant: the appended entries are exactly the
future echoes of the surviving queue. -/
theorem mergeOK_append_tail {C E : Type} (A : OTAlg C E) (cid : String) :
    ∀ (S : List (OverUpdate C)) (q : List C) (F : Option C)
      (T : List (OverUpdate C)),
      MergeOK A cid q F S →
      T.map (fun u => u.changes) =
        tailRebase A (q.drop (mergeLoop A cid q F S).1) (mergeLoop A cid q F S).2 →
      (∀ u ∈ T, u.clientID = cid) →
      MergeOK A cid q F (S ++ T) := by
  intro S
  induction S with
  | nil =>
      intro q F T _ hch hT
      simp only [mergeLoop, List.drop_zero] at hch
      exact mergeOK_of_tail A cid T q F hch hT
  | cons u S ih =>
      intro q F T hM hch hT
      by_cases hc : u.clientID = cid
      · cases q with
        | nil => simp [MergeOK, hc] at hM
        | cons c q2 =>
            simp only [MergeOK, hc, if_true] at hM ⊢
            simp only [mergeLoop, hc, if_true, List.drop_succ_cons] at hch
            exact ⟨hM.1, ih q2 _ T hM.2 hch hT⟩
      · cases q with
        | nil =>
            simp only [MergeOK, hc, if_false] at hM ⊢
            simp only [mergeLoop, hc, if_false] at hch
            exact ih [] _ T hM hch hT
        | cons c q2 =>
            simp only [MergeOK, hc, if_false] at hM ⊢
            simp only [mergeLoop, hc, if_false] at hch
            exact ih (c :: q2) _ T hM hch hT

/-- Appending a new local edit to the end of the queue preserves the
simulation invariant (the slice only ever consumes a queue prefix). -/
theorem mergeOK_snoc_queue {C E : Type} (A : OTAlg C E) (cid : String) :
    ∀ (S : List (OverUpdate C)) (q : List C) (F : Option C) (c0 : C),
      MergeOK A cid q F S → MergeOK A cid (q ++ [c0]) F S := by
  intro S
  induction S with
  | nil => intro q F c0 _; trivial
  | cons u S ih =>
      intro q F c0 hM
      by_cases hc : u.clientID = cid
      · cases q with
        | nil => simp [MergeOK, hc] at hM
        | cons c q2 =>
            simp only [MergeOK, hc, if_true] at hM ⊢
            exact ⟨hM.1, ih q2 _ c0 hM.2⟩
      · cases q with
        | nil =>
            simp only [MergeOK, hc, if_false, List.nil_append] at hM ⊢
            exact ih [] _ c0 hM
        | cons c q2 =>
            simp only [MergeOK, hc, if_false] at hM ⊢
            exact ih (c :: q2) _ c0 hM

/-- The batch loop of `receiveUpdates` computes exactly the reference merge
loop: the own-update counter advances by the number of consumed queue
entries and the aggregate scripts agree (when every unconfirmed update belongs
to this client). -/
theorem receiveFold_eq_mergeLoop {C E : Type} (A : OTAlg C E) (cid : String) :
    ∀ (S : List (Update C E)) (q0 : List (LocalUpdate C E)),
      (∀ u ∈ q0, u.clientID = cid) →
      ∀ (own : Nat) (F : Option C) (es : List E),
      (S.foldl (receiveStep A q0) (own, F, es)).1 =
        own + (mergeLoop A cid ((q0.drop own).map (fun u => u.changes)) F
          (S.map Update.toOver)).1 ∧
      (S.foldl (receiveStep A q0) (own, F, es)).2.1 =
        (mergeLoop A cid ((q0.drop own).map (fun u => u.changes)) F
          (S.map Update.toOver)).2 := by
  intro S
  induction S with
  | nil => intro q0 hq own F es; simp [mergeLoop]
  | cons u S ih =>
      intro q0 hq own F es
      simp only [List.foldl_cons, List.map_cons]
      cases hx : q0[own]? with
      | some ours =>
          obtain ⟨hlt, hget⟩ := List.getElem?_eq_some.mp hx
          have hdrop : q0.drop own = ours :: q0.drop (own + 1) := by
            rw [List.drop_eq_getElem_cons hlt, hget]
          have hcid : ours.clientID = cid := hq ours (List.getElem?_mem hx)
          by_cases hco : ours.clientID = u.clientID
          · have hu : (Update.toOver u).clientID = cid := by
              simp [Update.toOver, ← hco, hcid]
            have hstep : receiveStep A q0 (own, F, es) u =
                (own + 1, F.map (fun ch => A.mapCh ch ours.changes true),
                 mapEffects A es u.changes) := by
              simp [receiveStep, hx, hco]
            rw [hstep, hdrop]
            simp only [List.map_cons, mergeLoop, hu, if_true]
            have hr := ih q0 hq (own + 1)
              (F.map (fun ch => A.mapCh ch ours.changes true))
              (mapEffects A es u.changes)
            refine ⟨?_, hr.2⟩
            rw [hr.1]
            omega
          · have hu : ¬ (Update.toOver u).clientID = cid := by
              simp only [Update.toOver]
              intro h
              exact hco (hcid.trans h.symm)
            have hstep : receiveStep A q0 (own, F, es) u =
                receiveStepForeign A (own, F, es) u := by
              simp [receiveStep, hx, hco]
            rw [hstep, hdrop]
            cases F with
            | none =>
                have hr := ih q0 hq own (some u.changes)
                  (mapEffects A es u.changes ++ u.effects)
                simp only [receiveStepForeign] at hr ⊢
                rw [hdrop] at hr
                simpa only [List.map_cons, mergeLoop, hu, if_false] using hr
            | some x =>
                have hr := ih q0 hq own (some (A.compose x u.changes))
                  (mapEffects A es u.changes ++ u.effects)
                simp only [receiveStepForeign] at hr ⊢
                rw [hdrop] at hr
                simpa only [List.map_cons, mergeLoop, hu, if_false] using hr
      | none =>
          have hge : q0.length ≤ own := by
            by_contra h
            exact absurd hx (by simp [List.getElem?_eq_getElem (Nat.lt_of_not_le h)])
          have hdrop : q0.drop own = [] := List.drop_eq_nil_of_le hge
          have hstep : receiveStep A q0 (own, F, es) u =
              receiveStepForeign A (own, F, es) u := by
            simp [receiveStep, hx]
          rw [hstep, hdrop]
          cases F with
          | none =>
              have hr := ih q0 hq own (some u.changes)
                (mapEffects A es u.changes ++ u.effects)
              simp only [receiveStepForeign] at hr ⊢
              rw [hdrop] at hr
              simpa only [List.map_nil, mergeLoop] using hr
          | some x =>
              have hr := ih q0 hq own (some (A.compose x u.changes))
                (mapEffects A es u.changes ++ u.effects)
              simp only [receiveStepForeign] at hr ⊢
              rw [hdrop] at hr
              simpa only [List.map_nil, mergeLoop] using hr

/-- The deduplication loop of `rebaseUpdates` computes exactly the reference
merge loop: the skip counter advances by the number of consumed entries and
the aggregate scripts agree (when every client update belongs to this
client). -/
theorem rebaseFold_eq_mergeLoop {C E : Type} (A : OTAlg C E) (cid : String) :
    ∀ (S : List (OverUpdate C)) (q : List (Update C E)),
      (∀ u ∈ q, u.clientID = cid) →
      ∀ (F : Option C) (k : Nat),
      (S.foldl (rebaseStep A q) (F, k)).1 =
        (mergeLoop A cid ((q.drop k).map (fun u => u.changes)) F S).2 ∧
      (S.foldl (rebaseStep A q) (F, k)).2 =
        k + (mergeLoop A cid ((q.drop k).map (fun u => u.changes)) F S).1 := by
  intro S
  induction S with
  | nil => intro q hq F k; simp [mergeLoop]
  | cons u S ih =>
      intro q hq F k
      simp only [List.foldl_cons]
      cases hx : q[k]? with
      | some other =>
          obtain ⟨hlt, hget⟩ := List.getElem?_eq_some.mp hx
          have hdrop : q.drop k = other :: q.drop (k + 1) := by
            rw [List.drop_eq_getElem_cons hlt, hget]
          have hcid : other.clientID = cid := hq other (List.getElem?_mem hx)
          by_cases hco : other.clientID = u.clientID
          · have hu : u.clientID = cid := hco.symm.trans hcid
            have hstep : rebaseStep A q (F, k) u =
                (F.map (fun ch => A.mapCh ch other.changes true), k + 1) := by
              simp [rebaseStep, hx, hco]
            rw [hstep, hdrop]
            simp only [List.map_cons, mergeLoop, hu, if_true]
            have hr := ih q hq (F.map (fun ch => A.mapCh ch other.changes true)) (k + 1)
            refine ⟨hr.1, ?_⟩
            rw [hr.2]
            omega
          · have hu : ¬ u.clientID = cid := by
              intro h
              exact hco (hcid.trans h.symm)
            have hstep : rebaseStep A q (F, k) u =
                (some (match F with
                       | some ch => A.compose ch u.changes
                       | none => u.changes), k) := by
              simp [rebaseStep, hx, hco]
            rw [hstep, hdrop]
            cases F with
            | none =>
                have hr := ih q hq (some u.changes) k
                rw [hdrop] at hr
                simpa only [List.map_cons, mergeLoop, hu, if_false] using hr
            | some x =>
                have hr := ih q hq (some (A.compose x u.changes)) k
                rw [hdrop] at hr
                simpa only [List.map_cons, mergeLoop, hu, if_false] using hr
      | none =>
          have hge : q.length ≤ k := by
            by_contra h
            exact absurd hx (by simp [List.getElem?_eq_getElem (Nat.lt_of_not_le h)])
          have hdrop : q.drop k = [] := List.drop_eq_nil_of_le hge
          have hstep : rebaseStep A q (F, k) u =
              (some (match F with
                     | some ch => A.compose ch u.changes
                     | none => u.changes), k) := by
            simp [rebaseStep, hx]
          rw [hstep, hdrop]
          cases F with
          | none =>
              have hr := ih q hq (some u.changes) k
              rw [hdrop] at hr
              simpa only [List.map_nil, mergeLoop] using hr
          | some x =>
              have hr := ih q hq (some (A.compose x u.changes)) k
              rw [hdrop] at hr
              simpa only [List.map_nil, mergeLoop] using hr

/-- The client-side rebase pass computes the alternating rebase recurrence on
change scripts. -/
theorem rebaseUnconfirmed_changes {C E : Type} (A : OTAlg C E) (cid : String) :
    ∀ (q : List (LocalUpdate C E)) (x : C),
      (rebaseUnconfirmed A cid q x).1.map (fun u => u.changes) =
        (rebaseChanges A (q.map (fun u => u.changes)) x).1 ∧
      (rebaseUnconfirmed A cid q x).2 =
        (rebaseChanges A (q.map (fun u => u.changes)) x).2 := by
  intro q
  induction q with
  | nil => intro x; exact ⟨rfl, rfl⟩
  | cons u q ih =>
      intro x
      constructor
      · simp only [rebaseUnconfirmed, rebaseChanges, List.map_cons]
        rw [(ih _).1]
      · simp only [rebaseUnconfirmed, rebaseChanges]
        exact (ih _).2

/-- The client-side rebase pass stamps every rebuilt update with the
configured client ID. -/
theorem rebaseUnconfirmed_cids {C E : Type} (A : OTAlg C E) (cid : String) :
    ∀ (q : List (LocalUpdate C E)) (x : C) (v : LocalUpdate C E),
      v ∈ (rebaseUnconfirmed A cid q x).1 → v.clientID = cid := by
  intro q
  induction q with
  | nil => intro x v hv; simp [rebaseUnconfirmed] at hv
  | cons u q ih =>
      intro x v hv
      simp only [rebaseUnconfirmed, List.mem_cons] at hv
      cases hv with
      | inl h => rw [h]
      | inr h => exact ih _ v h

/-- The server-side rebase pass computes the same alternating rebase
recurrence on change scripts. -/
theorem rebaseRemaining_changes {C E : Type} (A : OTAlg C E) :
    ∀ (q : List (Update C E)) (x : C),
      (rebaseRemaining A q x).1.map (fun u => u.changes) =
        (rebaseChanges A (q.map (fun u => u.changes)) x).1 ∧
      (rebaseRemaining A q x).2 =
        (rebaseChanges A (q.map (fun u => u.changes)) x).2 := by
  intro q
  induction q with
  | nil => intro x; exact ⟨rfl, rfl⟩
  | cons u q ih =>
      intro x
      constructor
      · simp only [rebaseRemaining, rebaseChanges, List.map_cons]
        rw [(ih _).1]
      · simp only [rebaseRemaining, rebaseChanges]
        exact (ih _).2

/-- The server-side rebase pass keeps client IDs (membership form). -/
theorem rebaseRemaining_cids {C E : Type} (A : OTAlg C E) (cid : String) :
    ∀ (q : List (Update C E)) (x : C), (∀ u ∈ q, u.clientID = cid) →
      ∀ v ∈ (rebaseRemaining A q x).1, v.clientID = cid := by
  intro q
  induction q with
  | nil => intro x _ v hv; simp [rebaseRemaining] at hv
  | cons u q ih =>
      intro x hq v hv
      simp only [rebaseRemaining, List.mem_cons] at hv
      cases hv with
      | inl h => rw [h]; exact hq u (by simp)
      | inr h => exact ih _ (fun w hw => hq w (by simp [hw])) v h

/-- Both branches of `receiveUpdates` carry the rebased aggregate as the
transaction's change field. -/
theorem receiveUpdates_changes_eq {C E : Type} (A : OTAlg C E) (clientID : String)
    (st : CollabState C E) (updates : List (Update C E)) :
    (receiveUpdates A clientID st updates).changes =
      (receiveRebased A clientID st updates).2 := by
  unfold receiveUpdates
  cases h : (receiveRebased A clientID st updates).2 <;> simp [h]

/-- The protocol-level content of `receiveUpdates`: under the simulation
invariant, (a) applying the returned change to the pre-receive document (base
plus stored queue) gives the document obtained by folding the whole
authoritative slice and then the new queue, (b) the new queue is the
alternating rebase of the surviving stored queue over the final aggregate,
(c) every new queue entry carries this client's ID, and (d) the version
advances to the full log length. -/
theorem receiveUpdates_protocol {C E D : Type} (A : OTAlg C E) (ap : D → C → D)
    (L : OTLaws A ap) (cid : String) (st : CollabState C E)
    (S : List (Update C E))
    (hq : ∀ u ∈ st.unconfirmed, u.clientID = cid)
    (hM : MergeOK A cid (st.unconfirmed.map (fun u => u.changes)) none
      (S.map Update.toOver)) (B : D) :
    applyOpt ap (applyFold ap B (st.unconfirmed.map (fun u => u.changes)))
        (receiveUpdates A cid st S).changes =
      applyFold ap (applyFold ap B (S.map (fun u => u.changes)))
        ((receiveUpdates A cid st S).syncState.unconfirmed.map (fun u => u.changes)) ∧
    (receiveUpdates A cid st S).syncState.unconfirmed.map (fun u => u.changes) =
      tailRebase A
        ((st.unconfirmed.map (fun u => u.changes)).drop
          (mergeLoop A cid (st.unconfirmed.map (fun u => u.changes)) none
            (S.map Update.toOver)).1)
        (mergeLoop A cid (st.unconfirmed.map (fun u => u.changes)) none
          (S.map Update.toOver)).2 ∧
    (∀ v ∈ (receiveUpdates A cid st S).syncState.unconfirmed, v.clientID = cid) ∧
    (receiveUpdates A cid st S).syncState.version = st.version + S.length := by
  set qch := st.unconfirmed.map (fun u => u.changes) with hqch
  set m := mergeLoop A cid qch none (S.map Update.toOver) with hm
  -- the batch loop agrees with the reference merge loop
  have hfold := receiveFold_eq_mergeLoop A cid S st.unconfirmed hq 0 none []
  simp only [List.drop_zero, Nat.zero_add] at hfold
  have hfold1 : (receiveFolded A st.unconfirmed S).1 = m.1 := hfold.1
  have hfold2 : (receiveFolded A st.unconfirmed S).2.1 = m.2 := hfold.2
  -- the semantic content of the merge loop
  have hOverCh : (S.map Update.toOver).map (fun u => u.changes) =
      S.map (fun u => u.changes) := by
    simp [Update.toOver, Function.comp]
  have hsem0 := mergeLoop_semantic A ap L cid (S.map Update.toOver) qch none B hM
  rw [hOverCh] at hsem0
  have hsem : applyFold ap B (S.map (fun u => u.changes)) =
      applyOpt ap (applyFold ap B (qch.take m.1)) m.2 := by
    simpa [applyOpt, ← hm] using hsem0
  -- fold splitting
  have hsplit : applyFold ap B qch =
      applyFold ap (applyFold ap B (qch.take m.1)) (qch.drop m.1) := by
    simp only [applyFold]
    rw [← List.foldl_append, List.take_append_drop]
  have hverlen : (receiveUpdates A cid st S).syncState.version =
      st.version + S.length := by
    rw [receiveUpdates_syncState]
  have hunc : (receiveUpdates A cid st S).syncState.unconfirmed =
      (receiveRebased A cid st S).1 := by
    rw [receiveUpdates_syncState]
  have hdropch : (st.unconfirmed.drop (receiveFolded A st.unconfirmed S).1).map
      (fun u => u.changes) = qch.drop m.1 := by
    rw [hfold1, hqch, List.map_drop]
  rw [receiveUpdates_changes_eq, hunc]
  -- case analysis mirroring receiveRebased
  simp only [receiveRebased]
  split
  · -- surviving queue non-empty
    next hlen =>
      cases hF : (receiveFolded A st.unconfirmed S).2.1 with
      | none =>
          have hm2 : m.2 = none := by rw [← hfold2, hF]
          simp only [hF]
          refine ⟨?_, ?_, ?_, hverlen⟩
          · simp only [applyOpt, hsem, hm2, hdropch]
            exact hsplit
          · rw [hdropch, hm2]
            rfl
          · intro v hv
            exact hq v (List.mem_of_mem_drop hv)
      | some x =>
          have hm2 : m.2 = some x := by rw [← hfold2, hF]
          simp only [hF]
          have hrc := rebaseUnconfirmed_changes A cid
            (st.unconfirmed.drop (receiveFolded A st.unconfirmed S).1) x
          refine ⟨?_, ?_, ?_, hverlen⟩
          · simp only [applyOpt, hsem, hm2, hsplit]
            rw [hrc.2, hrc.1, hdropch]
            exact rebaseChanges_semantic A ap L (qch.drop m.1) x
              (applyFold ap B (qch.take m.1))
          · rw [hrc.1, hdropch, hm2]
            rfl
          · intro v hv
            exact rebaseUnconfirmed_cids A cid _ x v hv
  · -- surviving queue empty
    next hlen =>
      have hlen0 : (st.unconfirmed.drop (receiveFolded A st.unconfirmed S).1).length = 0 := by
        omega
      have hnil : st.unconfirmed.drop (receiveFolded A st.unconfirmed S).1 = [] :=
        List.eq_nil_of_length_eq_zero hlen0
      have hchnil : qch.drop m.1 = [] := by
        rw [← hdropch, hnil]
        rfl
      have htake : qch.take m.1 = qch := by
        have : qch.length ≤ m.1 := by
          have h2 := congrArg List.length hchnil
          simp at h2
          omega
        exact List.take_of_length_le this
      cases hF : (receiveFolded A st.unconfirmed S).2.1 with
      | none =>
          have hm2 : m.2 = none := by rw [← hfold2, hF]
          refine ⟨?_, ?_, ?_, hverlen⟩
          · simp only [hnil, List.map_nil, applyFold_nil, applyOpt,
              hsem, hm2, htake]
          · rw [hnil, hchnil, hm2]
            rfl
          · intro v hv
            rw [hnil] at hv
            simp at hv
      | some x =>
          have hm2 : m.2 = some x := by rw [← hfold2, hF]
          refine ⟨?_, ?_, ?_, hverlen⟩
          · simp only [hnil, List.map_nil, applyFold_nil, applyOpt,
              hsem, hm2, htake]
          · rw [hnil, hchnil, hm2]
            rfl
          · intro v hv
            rw [hnil] at hv
            simp at hv

/-- The alternating rebase keeps the number of scripts. -/
theorem rebaseChanges_length {C E : Type} (A : OTAlg C E) :
    ∀ (q : List C) (x : C), (rebaseChanges A q x).1.length = q.length := by
  intro q
  induction q with
  | nil => intro x; rfl
  | cons c q ih => intro x; simp [rebaseChanges, ih]

/-- The protocol-level content of `rebaseUpdates`: for a queue that belongs
entirely to one client, the returned updates are exactly the alternating
rebase of the not-yet-accepted queue suffix over the final aggregate of the
log slice (the future echoes the simulation invariant expects), they all keep
this client's ID, and exactly the already-accepted prefix is dropped. -/
theorem rebaseUpdates_protocol {C E : Type} (A : OTAlg C E) (cid : String)
    (q : List (LocalUpdate C E)) (S : List (OverUpdate C))
    (hq : ∀ u ∈ q, u.clientID = cid) :
    (rebaseUpdates A (q.map LocalUpdate.toUpdate) S).map (fun u => u.changes) =
      tailRebase A ((q.map (fun u => u.changes)).drop
          (mergeLoop A cid (q.map (fun u => u.changes)) none S).1)
        (mergeLoop A cid (q.map (fun u => u.changes)) none S).2 ∧
    (∀ v ∈ rebaseUpdates A (q.map LocalUpdate.toUpdate) S, v.clientID = cid) ∧
    (rebaseUpdates A (q.map LocalUpdate.toUpdate) S).length =
      q.length - (mergeLoop A cid (q.map (fun u => u.changes)) none S).1 := by
  set qch := q.map (fun u => u.changes) with hqch
  set m := mergeLoop A cid qch none S with hm
  have hqu : ∀ u ∈ q.map LocalUpdate.toUpdate, u.clientID = cid := by
    intro u hu
    obtain ⟨v, hv, rfl⟩ := List.mem_map.mp hu
    exact hq v hv
  have hmapmap : (q.map LocalUpdate.toUpdate).map (fun u => u.changes) = qch := by
    simp [LocalUpdate.toUpdate, hqch]
  by_cases hempty : S.length = 0 ∨ (q.map LocalUpdate.toUpdate).length = 0
  · have hret : rebaseUpdates A (q.map LocalUpdate.toUpdate) S =
        q.map LocalUpdate.toUpdate := by
      simp only [rebaseUpdates, if_pos hempty]
    rw [hret]
    cases hempty with
    | inl hS =>
        have hSnil : S = [] := List.eq_nil_of_length_eq_zero hS
        subst hSnil
        refine ⟨?_, hqu, ?_⟩
        · simp [hm, mergeLoop, tailRebase, hmapmap]
        · simp [hm, mergeLoop]
    | inr hq0 =>
        have hqnil : q = [] := by
          cases q with
          | nil => rfl
          | cons a l => simp at hq0
        subst hqnil
        have hm1 : ∀ (F : Option C) (S2 : List (OverUpdate C)),
            (mergeLoop A cid ([] : List C) F S2).1 = 0 := by
          intro F S2
          induction S2 generalizing F with
          | nil => rfl
          | cons u S2 ih => simp [mergeLoop, ih]
        refine ⟨?_, hqu, ?_⟩
        · have hq2 : qch = [] := by simp [hqch]
          rw [hq2]
          simp only [tailRebase]
          cases hx : m.2 with
          | none => simp
          | some x => simp [List.drop_nil, rebaseChanges]
        · simp [hqch]
  · have hfold := rebaseFold_eq_mergeLoop A cid S (q.map LocalUpdate.toUpdate) hqu none 0
    simp only [List.drop_zero, Nat.zero_add, hmapmap, ← hm] at hfold
    have hrw : rebaseUpdates A (q.map LocalUpdate.toUpdate) S =
        (match m.2 with
         | none => (q.map LocalUpdate.toUpdate).drop m.1
         | some x => (rebaseRemaining A ((q.map LocalUpdate.toUpdate).drop m.1) x).1) := by
      simp only [rebaseUpdates, if_neg hempty]
      rw [hfold.1, hfold.2]
    have hdropmap : (q.map LocalUpdate.toUpdate).drop m.1 =
        (q.drop m.1).map LocalUpdate.toUpdate := by
      rw [List.map_drop]
    have hdropch : ((q.drop m.1).map LocalUpdate.toUpdate).map (fun u => u.changes) =
        qch.drop m.1 := by
      rw [List.map_drop, List.map_drop, hmapmap]
    have hdropcid : ∀ u ∈ (q.drop m.1).map LocalUpdate.toUpdate, u.clientID = cid := by
      intro u hu
      obtain ⟨v, hv, rfl⟩ := List.mem_map.mp hu
      exact hq v (List.mem_of_mem_drop hv)
    rw [hrw]
    cases hF : m.2 with
    | none =>
        refine ⟨?_, ?_, ?_⟩
        · rw [hdropmap, hdropch]
          rfl
        · rw [hdropmap]
          exact hdropcid
        · simp [hqch]
    | some x =>
        have hrr := rebaseRemaining_changes A ((q.drop m.1).map LocalUpdate.toUpdate) x
        refine ⟨?_, ?_, ?_⟩
        · rw [hdropmap, hrr.1, hdropch]
          rfl
        · rw [hdropmap]
          exact rebaseRemaining_cids A cid _ x hdropcid
        · rw [hdropmap]
          have hlen := congrArg List.length hrr.1
          simp only [List.length_map, rebaseChanges_length] at hlen
          simp only [hlen]
          simp [hqch]

/-- Setting a list entry to its current value changes nothing. -/
theorem list_set_self {α : Type} (l : List α) (i : Nat) (hi : i < l.length) :
    l.set i l[i] = l := by
  apply List.ext_getElem
  · simp
  · intro n h1 h2
    by_cases hn : n = i
    · subst hn
      exact List.getElem_set_self h1
    · exact List.getElem_set_ne (fun hh => hn hh.symm) h1

/-- A local edit preserves the system invariant: the capture hook either
leaves the collab state alone (and the edit is empty, so the document is
unchanged too) or appends exactly the committed update to the queue. -/
theorem editSys_inv {C E D : Type} (A : OTAlg C E) (ap : D → C → D)
    (L : OTLaws A ap) (d0 : D) (sys : Sys C E D) (i trid : Nat) (ch : C)
    (es : List E) (hI : SysInv A ap d0 sys) :
    SysInv A ap d0 (editSys A ap sys i trid ch es) := by
  unfold editSys
  cases hx : sys.peers[i]? with
  | none => exact hI
  | some p =>
      obtain ⟨hlt, hget⟩ := List.getElem?_eq_some.mp hx
      have hcidmap : (sys.peers.map (fun q => q.clientID)).set i p.clientID =
          sys.peers.map (fun q => q.clientID) := by
        have hb : i < (sys.peers.map (fun q => q.clientID)).length := by simpa
        have : p.clientID = (sys.peers.map (fun q => q.clientID))[i] := by
          simp [hget]
        rw [this]
        exact list_set_self _ i hb
      constructor
      · rw [List.map_set]
        simpa [hcidmap] using hI.nodup
      · intro j hj
        simp only [List.length_set] at hj
        by_cases hji : j = i
        · subst hji
          rw [List.getElem_set_self (by simpa using hj)]
          have hP := hI.peer_inv j (by simpa using hj)
          rw [show sys.peers[j] = p from by rw [← hget]] at hP
          -- the capture hook
          unfold collabFieldUpdate
          by_cases hcap : ([] : List E).length ≠ 0 ∨ es.length ≠ 0 ∨
              A.isEmpty ch = false
          · -- appended
            by_cases hcap2 : es.length ≠ 0 ∨ A.isEmpty ch = false
            · simp only [if_pos hcap2]
              constructor
              · exact hP.version_le
              · intro u hu
                simp only [List.mem_append, List.mem_singleton] at hu
                cases hu with
                | inl h => exact hP.queue_cid u h
                | inr h => rw [h]
              · simp only [List.map_append, List.map_cons, List.map_nil,
                  applyFold_append, applyFold_cons, applyFold_nil]
                rw [← hP.doc_eq]
              · simp only [List.map_append, List.map_cons, List.map_nil]
                exact mergeOK_snoc_queue A p.clientID _ _ none ch hP.merge_ok
            · exact absurd hcap (by simpa using hcap2)
          · -- empty commit: state unchanged, document unchanged by ap_empty
            push_neg at hcap
            obtain ⟨-, hes, hemp⟩ := hcap
            have hemp2 : A.isEmpty ch = true := by
              cases hval : A.isEmpty ch with
              | true => rfl
              | false => exact absurd hval hemp
            have hes2 : es = [] := List.eq_nil_of_length_eq_zero (by omega)
            simp only [if_neg (by simp [hes2, hemp2] : ¬ (es.length ≠ 0 ∨
              A.isEmpty ch = false))]
            constructor
            · exact hP.version_le
            · exact hP.queue_cid
            · rw [L.ap_empty p.doc ch hemp2]
              exact hP.doc_eq
            · exact hP.merge_ok
        · rw [List.getElem_set_ne (fun hh => hji hh.symm) (by simpa using hj)]
          exact hI.peer_inv j (by simpa using hj)

/-- A receive preserves the system invariant: the merge engine advances the
version to the log length, retires the echoed prefix, rebases the rest, and
moves the document to the log-fold followed by the rebased queue. -/
theorem recvSys_inv {C E D : Type} (A : OTAlg C E) (ap : D → C → D)
    (L : OTLaws A ap) (d0 : D) (sys : Sys C E D) (i : Nat)
    (hI : SysInv A ap d0 sys) :
    SysInv A ap d0 (recvSys A ap sys i) := by
  unfold recvSys
  cases hx : sys.peers[i]? with
  | none => exact hI
  | some p =>
      by_cases hv : p.collab.version < sys.log.length
      · simp only [if_pos hv]
        obtain ⟨hlt, hget⟩ := List.getElem?_eq_some.mp hx
        have hP := hI.peer_inv i hlt
        rw [hget] at hP
        have hproto := receiveUpdates_protocol A ap L p.clientID p.collab
          (sys.log.drop p.collab.version) hP.queue_cid hP.merge_ok
          (applyFold ap d0 ((sys.log.take p.collab.version).map (fun u => u.changes)))
        have hver : (receiveUpdates A p.clientID p.collab
            (sys.log.drop p.collab.version)).syncState.version = sys.log.length := by
          rw [hproto.2.2.2]
          simp only [List.length_drop]
          omega
        have hfoldlog : applyFold ap
            (applyFold ap d0 ((sys.log.take p.collab.version).map (fun u => u.changes)))
            ((sys.log.drop p.collab.version).map (fun u => u.changes)) =
            applyFold ap d0 (sys.log.map (fun u => u.changes)) := by
          rw [← applyFold_append, ← List.map_append, List.take_append_drop]
        have hcidmap : (sys.peers.map (fun q => q.clientID)).set i p.clientID =
            sys.peers.map (fun q => q.clientID) := by
          have hb : i < (sys.peers.map (fun q => q.clientID)).length := by simpa
          have : p.clientID = (sys.peers.map (fun q => q.clientID))[i] := by
            simp [hget]
          rw [this]
          exact list_set_self _ i hb
        constructor
        · rw [List.map_set]
          simpa [hcidmap] using hI.nodup
        · intro j hj
          simp only [List.length_set] at hj
          by_cases hji : j = i
          · subst hji
            rw [List.getElem_set_self (by simpa using hj)]
            constructor
            · rw [hver]
            · intro u hu
              exact hproto.2.2.1 u hu
            · rw [hver, List.take_length]
              rw [← hfoldlog]
              rw [← hproto.1, hP.doc_eq]
            · rw [hver, List.drop_length]
              trivial
          · rw [List.getElem_set_ne (fun hh => hji hh.symm) (by simpa using hj)]
            exact hI.peer_inv j (by simpa using hj)
      · simp only [if_neg hv]
        exact hI

/-- Appending one participant's pending tail (the rebased remainder of its
queue) to the log preserves the system invariant: for the sender they are its
expected future echoes, for everyone else they are foreign entries. -/
theorem appendLog_inv {C E D : Type} (A : OTAlg C E) (ap : D → C → D)
    (d0 : D) (sys : Sys C E D) (i : Nat) (p : PState C E D)
    (hx : sys.peers[i]? = some p)
    (T : List (Update C E)) (hI : SysInv A ap d0 sys)
    (hch : T.map (fun u => u.changes) =
      tailRebase A ((p.collab.unconfirmed.map (fun u => u.changes)).drop
          (mergeLoop A p.clientID (p.collab.unconfirmed.map (fun u => u.changes)) none
            ((sys.log.drop p.collab.version).map Update.toOver)).1)
        (mergeLoop A p.clientID (p.collab.unconfirmed.map (fun u => u.changes)) none
          ((sys.log.drop p.collab.version).map Update.toOver)).2)
    (hcid : ∀ v ∈ T, v.clientID = p.clientID) :
    SysInv A ap d0 ⟨sys.log ++ T, sys.peers⟩ := by
  obtain ⟨hlt, hget⟩ := List.getElem?_eq_some.mp hx
  constructor
  · exact hI.nodup
  · intro j hj
    have hPj := hI.peer_inv j hj
    have hvj : sys.peers[j].collab.version ≤ sys.log.length := hPj.version_le
    have hdropT : ((sys.log ++ T).drop sys.peers[j].collab.version).map Update.toOver =
        (sys.log.drop sys.peers[j].collab.version).map Update.toOver ++
          T.map Update.toOver := by
      rw [List.drop_append_of_le_length hvj, List.map_append]
    constructor
    · simp only [List.length_append]
      omega
    · exact hPj.queue_cid
    · rw [List.take_append_of_le_length hvj]
      exact hPj.doc_eq
    · rw [hdropT]
      by_cases hji : j = i
      · subst hji
        have hpj : sys.peers[j] = p := hget
        rw [hpj]
        apply mergeOK_append_tail A p.clientID _ _ none (T.map Update.toOver)
          (hpj ▸ hPj.merge_ok)
        · rw [List.map_map]
          have : ((fun u => u.changes) ∘ Update.toOver) =
              (fun (u : Update C E) => u.changes) := rfl
          rw [this]
          exact hch
        · intro u hu
          obtain ⟨v, hv, rfl⟩ := List.mem_map.mp hu
          exact hcid v hv
      · apply mergeOK_append_foreign A sys.peers[j].clientID _ _ none
          (T.map Update.toOver) hPj.merge_ok
        intro u hu
        obtain ⟨v, hv, rfl⟩ := List.mem_map.mp hu
        have h1 : (Update.toOver v).clientID = p.clientID := hcid v hv
        rw [h1]
        intro heq
        have hbi : i < (sys.peers.map (fun q => q.clientID)).length := by simpa
        have hbj : j < (sys.peers.map (fun q => q.clientID)).length := by
          simpa using hj
        have hmapi : (sys.peers.map (fun q => q.clientID))[i] =
            p.clientID := by simp [hget]
        have hmapj : (sys.peers.map (fun q => q.clientID))[j] =
            sys.peers[j].clientID := by simp
        have := (List.Nodup.getElem_inj_iff hI.nodup).mp
          (hmapi.trans (heq.trans hmapj.symm))
        exact hji this.symm

/-- A send preserves the system invariant. -/
theorem sendSys_inv {C E D : Type} (A : OTAlg C E) (ap : D → C → D)
    (d0 : D) (sys : Sys C E D) (i : Nat) (hI : SysInv A ap d0 sys) :
    SysInv A ap d0 (sendSys A sys i) := by
  unfold sendSys
  cases hx : sys.peers[i]? with
  | none => exact hI
  | some p =>
      obtain ⟨hlt, hget⟩ := List.getElem?_eq_some.mp hx
      have hP := hI.peer_inv i hlt
      rw [hget] at hP
      simp only [getSyncedVersion, sendableUpdates]
      by_cases hvlen : p.collab.version ≠ sys.log.length
      · simp only [if_pos hvlen]
        set T := rebaseUpdates A (p.collab.unconfirmed.map LocalUpdate.toUpdate)
          ((sys.log.drop p.collab.version).map Update.toOver) with hTdef
        have hproto := rebaseUpdates_protocol A p.clientID p.collab.unconfirmed
          ((sys.log.drop p.collab.version).map Update.toOver) hP.queue_cid
        by_cases hT0 : T.length = 0
        · simp only [if_pos hT0]
          exact hI
        · simp only [if_neg hT0]
          exact appendLog_inv A ap d0 sys i p hx T hI hproto.1 hproto.2.1
      · simp only [if_neg hvlen]
        push_neg at hvlen
        set T := p.collab.unconfirmed.map LocalUpdate.toUpdate with hTdef
        have hSnil : (sys.log.drop p.collab.version).map Update.toOver = [] := by
          rw [hvlen, List.drop_length]
          rfl
        have hch : T.map (fun u => u.changes) =
            tailRebase A ((p.collab.unconfirmed.map (fun u => u.changes)).drop
                (mergeLoop A p.clientID
                  (p.collab.unconfirmed.map (fun u => u.changes)) none
                  ((sys.log.drop p.collab.version).map Update.toOver)).1)
              (mergeLoop A p.clientID
                (p.collab.unconfirmed.map (fun u => u.changes)) none
                ((sys.log.drop p.collab.version).map Update.toOver)).2 := by
          rw [hSnil]
          simp only [mergeLoop, List.drop_zero, tailRebase]
          rw [hTdef, List.map_map]
          rfl
        have hcid : ∀ v ∈ T, v.clientID = p.clientID := by
          intro v hv
          obtain ⟨u, hu, rfl⟩ := List.mem_map.mp hv
          exact hP.queue_cid u hu
        by_cases hT0 : T.length = 0
        · simp only [if_pos hT0]
          exact hI
        · simp only [if_neg hT0]
          exact appendLog_inv A ap d0 sys i p hx T hI hch hcid

/-- A send never changes the participants. -/
theorem sendSys_peers {C E D : Type} (A : OTAlg C E) (sys : Sys C E D) (i : Nat) :
    (sendSys A sys i).peers = sys.peers := by
  unfold sendSys
  cases sys.peers[i]? with
  | none => rfl
  | some p =>
      simp only []
      split <;> split <;> rfl

/-- A receive never changes the log. -/
theorem recvSys_log {C E D : Type} (A : OTAlg C E) (ap : D → C → D)
    (sys : Sys C E D) (i : Nat) : (recvSys A ap sys i).log = sys.log := by
  unfold recvSys
  split
  · rfl
  · split
    · rfl
    · rfl

/-- A receive leaves every other participant untouched. -/
theorem recvSys_peers_ne {C E D : Type} (A : OTAlg C E) (ap : D → C → D)
    (sys : Sys C E D) (i j : Nat) (hji : j ≠ i) :
    (recvSys A ap sys i).peers[j]? = sys.peers[j]? := by
  unfold recvSys
  split
  · rfl
  · split
    · simp only []
      exact List.getElem?_set_ne (fun hh => hji hh.symm)
    · rfl

/-- The alternating rebase of an empty queue is empty. -/
theorem tailRebase_nil {C E : Type} (A : OTAlg C E) (F : Option C) :
    tailRebase A [] F = [] := by
  cases F with
  | none => rfl
  | some x => rfl

/-- Distinct participants carry distinct client IDs. -/
theorem peers_cid_ne {C E D : Type} {A : OTAlg C E} {ap : D → C → D} {d0 : D}
    {sys : Sys C E D} (hI : SysInv A ap d0 sys) (i j : Nat)
    (p pj : PState C E D) (hxi : sys.peers[i]? = some p)
    (hxj : sys.peers[j]? = some pj) (hij : i ≠ j) :
    p.clientID ≠ pj.clientID := by
  obtain ⟨hi, hgi⟩ := List.getElem?_eq_some.mp hxi
  obtain ⟨hj, hgj⟩ := List.getElem?_eq_some.mp hxj
  intro heq
  have hbi : i < (sys.peers.map (fun q => q.clientID)).length := by simpa
  have hbj : j < (sys.peers.map (fun q => q.clientID)).length := by simpa
  have hmapi : (sys.peers.map (fun q => q.clientID))[i] = p.clientID := by
    simp [hgi]
  have hmapj : (sys.peers.map (fun q => q.clientID))[j] = pj.clientID := by
    simp [hgj]
  exact hij ((List.Nodup.getElem_inj_iff hI.nodup).mp
    (hmapi.trans (heq.trans hmapj.symm)))

/-- Counting a client's entries through the `toOver` projection counts the
same entries. -/
theorem countP_toOver {C E : Type} (l : List (Update C E)) (cid : String) :
    (l.map Update.toOver).countP (fun o => o.clientID = cid) =
      l.countP (fun u => u.clientID = cid) := by
  rw [List.countP_map]
  rfl

/-- After its own send, a participant has everything in flight: the unseen
slice of the new log carries exactly as many of its entries as its queue
holds. -/
theorem sendSys_fullySent {C E D : Type} (A : OTAlg C E) (ap : D → C → D)
    (d0 : D) (sys : Sys C E D) (i : Nat) (p : PState C E D)
    (hx : sys.peers[i]? = some p) (hI : SysInv A ap d0 sys) :
    FullySent (sendSys A sys i).log p := by
  obtain ⟨hlt, hget⟩ := List.getElem?_eq_some.mp hx
  have hP := hI.peer_inv i hlt
  rw [hget] at hP
  have hm2 := mergeLoop_fst_eq_countP A p.clientID
    ((sys.log.drop p.collab.version).map Update.toOver)
    (p.collab.unconfirmed.map (fun u => u.changes)) none hP.merge_ok
  have hm1 := mergeLoop_fst_le A p.clientID
    ((sys.log.drop p.collab.version).map Update.toOver)
    (p.collab.unconfirmed.map (fun u => u.changes)) none
  rw [countP_toOver] at hm2
  simp only [List.length_map] at hm1
  unfold sendSys
  rw [hx]
  simp only [getSyncedVersion, sendableUpdates]
  by_cases hvlen : p.collab.version ≠ sys.log.length
  · simp only [if_pos hvlen]
    have hproto := rebaseUpdates_protocol A p.clientID p.collab.unconfirmed
      ((sys.log.drop p.collab.version).map Update.toOver) hP.queue_cid
    by_cases hT0 : (rebaseUpdates A (p.collab.unconfirmed.map LocalUpdate.toUpdate)
        ((sys.log.drop p.collab.version).map Update.toOver)).length = 0
    · simp only [if_pos hT0]
      unfold FullySent
      rw [hproto.2.2] at hT0
      omega
    · simp only [if_neg hT0]
      unfold FullySent
      simp only [List.drop_append_of_le_length hP.version_le, List.countP_append]
      have hTall : (rebaseUpdates A (p.collab.unconfirmed.map LocalUpdate.toUpdate)
          ((sys.log.drop p.collab.version).map Update.toOver)).countP
            (fun u => u.clientID = p.clientID) =
          (rebaseUpdates A (p.collab.unconfirmed.map LocalUpdate.toUpdate)
            ((sys.log.drop p.collab.version).map Update.toOver)).length :=
        List.countP_eq_length.mpr (fun a ha => by simp [hproto.2.1 a ha])
      rw [hTall, hproto.2.2]
      omega
  · simp only [if_neg hvlen]
    push_neg at hvlen
    have hdropnil : sys.log.drop p.collab.version = [] := by
      rw [hvlen, List.drop_length]
    by_cases hT0 : (p.collab.unconfirmed.map LocalUpdate.toUpdate).length = 0
    · simp only [if_pos hT0]
      unfold FullySent
      simp only [hdropnil, List.countP_nil]
      simp only [List.length_map] at hT0
      omega
    · simp only [if_neg hT0]
      unfold FullySent
      simp only [List.drop_append_of_le_length hP.version_le, List.countP_append,
        hdropnil, List.countP_nil]
      have hTall : (p.collab.unconfirmed.map LocalUpdate.toUpdate).countP
          (fun u => u.clientID = p.clientID) =
          (p.collab.unconfirmed.map LocalUpdate.toUpdate).length :=
        List.countP_eq_length.mpr (fun a ha => by
          obtain ⟨u, hu, rfl⟩ := List.mem_map.mp ha
          simp [LocalUpdate.toUpdate, hP.queue_cid u hu])
      rw [hTall]
      simp

/-- Another participant's send leaves a fully-sent participant fully sent:
the appended entries belong to the sender, not to this client. -/
theorem sendSys_fullySent_ne {C E D : Type} (A : OTAlg C E) (ap : D → C → D)
    (d0 : D) (sys : Sys C E D) (i j : Nat) (pj : PState C E D)
    (hxj : sys.peers[j]? = some pj) (hji : j ≠ i)
    (hI : SysInv A ap d0 sys) (hF : FullySent sys.log pj) :
    FullySent (sendSys A sys i).log pj := by
  obtain ⟨hjlt, hjget⟩ := List.getElem?_eq_some.mp hxj
  have hPj := hI.peer_inv j hjlt
  rw [hjget] at hPj
  unfold sendSys
  cases hx : sys.peers[i]? with
  | none => exact hF
  | some p =>
      have hne : p.clientID ≠ pj.clientID := peers_cid_ne hI i j p pj hx hxj
        (fun hh => hji hh.symm)
      have happend : ∀ T : List (Update C E), (∀ v ∈ T, v.clientID = p.clientID) →
          FullySent (sys.log ++ T) pj := by
        intro T hT
        unfold FullySent
        simp only [List.drop_append_of_le_length hPj.version_le, List.countP_append]
        have hz : T.countP (fun u => u.clientID = pj.clientID) = 0 :=
          List.countP_eq_zero.mpr (fun a ha => by simp [hT a ha, hne])
        rw [hz]
        unfold FullySent at hF
        omega
      simp only [getSyncedVersion, sendableUpdates]
      obtain ⟨hlt, hget⟩ := List.getElem?_eq_some.mp hx
      have hP := hI.peer_inv i hlt
      rw [hget] at hP
      by_cases hvlen : p.collab.version ≠ sys.log.length
      · simp only [if_pos hvlen]
        have hproto := rebaseUpdates_protocol A p.clientID p.collab.unconfirmed
          ((sys.log.drop p.collab.version).map Update.toOver) hP.queue_cid
        split
        · exact hF
        · exact happend _ hproto.2.1
      · simp only [if_neg hvlen]
        split
        · exact hF
        · refine happend _ ?_
          intro v hv
          obtain ⟨u, hu, rfl⟩ := List.mem_map.mp hv
          exact hP.queue_cid u hu

/-- After receiving with everything in flight, a participant's queue is empty,
its version is the full log length, and its document is the base document
folded through the whole log. -/
theorem recvSys_finished {C E D : Type} (A : OTAlg C E) (ap : D → C → D)
    (L : OTLaws A ap) (d0 : D) (sys : Sys C E D) (i : Nat) (p : PState C E D)
    (hx : sys.peers[i]? = some p) (hI : SysInv A ap d0 sys)
    (hF : FullySent sys.log p) (p2 : PState C E D)
    (hx2 : (recvSys A ap sys i).peers[i]? = some p2) :
    p2.doc = applyFold ap d0 (sys.log.map (fun u => u.changes)) := by
  obtain ⟨hlt, hget⟩ := List.getElem?_eq_some.mp hx
  have hP := hI.peer_inv i hlt
  rw [hget] at hP
  -- first compute the shape of the post-receive collab state
  have hshape : p2.collab.unconfirmed = [] ∧ p2.collab.version = sys.log.length := by
    unfold recvSys at hx2
    rw [hx] at hx2
    by_cases hv : p.collab.version < sys.log.length
    · simp only [if_pos hv] at hx2
      rw [List.getElem?_set_self (by simpa using hlt)] at hx2
      obtain rfl := Option.some_injective _ hx2.symm
      have hm2 := mergeLoop_fst_eq_countP A p.clientID
        ((sys.log.drop p.collab.version).map Update.toOver)
        (p.collab.unconfirmed.map (fun u => u.changes)) none hP.merge_ok
      rw [countP_toOver] at hm2
      unfold FullySent at hF
      have hproto := receiveUpdates_protocol A ap L p.clientID p.collab
        (sys.log.drop p.collab.version) hP.queue_cid hP.merge_ok
        (applyFold ap d0 ((sys.log.take p.collab.version).map (fun u => u.changes)))
      constructor
      · have hdropnil : (p.collab.unconfirmed.map (fun u => u.changes)).drop
            (mergeLoop A p.clientID (p.collab.unconfirmed.map (fun u => u.changes))
              none ((sys.log.drop p.collab.version).map Update.toOver)).1 = [] := by
          apply List.drop_eq_nil_of_le
          rw [hm2, hF]
          simp
        have := hproto.2.1
        rw [hdropnil, tailRebase_nil] at this
        exact List.map_eq_nil_iff.mp this
      · rw [hproto.2.2.2]
        simp only [List.length_drop]
        omega
    · simp only [if_neg hv] at hx2
      rw [hx] at hx2
      have hp2 : p2 = p := Option.some_injective _ hx2.symm
      rw [hp2]
      have hveq : p.collab.version = sys.log.length := by
        have := hP.version_le
        omega
      refine ⟨?_, hveq⟩
      unfold FullySent at hF
      rw [hveq, List.drop_length] at hF
      simp only [List.countP_nil] at hF
      exact List.eq_nil_of_length_eq_zero hF.symm
  -- then read the document off the preserved invariant
  have hI2 := recvSys_inv A ap L d0 sys i hI
  obtain ⟨hlt2, hget2⟩ := List.getElem?_eq_some.mp hx2
  have hP2 := hI2.peer_inv i hlt2
  rw [hget2] at hP2
  rw [hP2.doc_eq, recvSys_log, hshape.1, hshape.2]
  simp [List.take_length, applyFold_nil]

/-- A receive never changes the number of participants. -/
theorem recvSys_peers_length {C E D : Type} (A : OTAlg C E) (ap : D → C → D)
    (sys : Sys C E D) (i : Nat) :
    (recvSys A ap sys i).peers.length = sys.peers.length := by
  unfold recvSys
  split
  · rfl
  · split
    · simp
    · rfl

/-- Running any schedule of edits, sends and receives preserves the system
invariant. -/
theorem runSys_inv {C E D : Type} (A : OTAlg C E) (ap : D → C → D)
    (L : OTLaws A ap) (d0 : D) (sys : Sys C E D) (evs : List (Ev C E))
    (hI : SysInv A ap d0 sys) : SysInv A ap d0 (runSys A ap sys evs) := by
  induction evs generalizing sys with
  | nil => exact hI
  | cons e evs ih =>
      cases e with
      | edit i trid ch es => exact ih _ (editSys_inv A ap L d0 sys i trid ch es hI)
      | send i => exact ih _ (sendSys_inv A ap d0 sys i hI)
      | recv i => exact ih _ (recvSys_inv A ap L d0 sys i hI)

/-- The closing send round: the invariant survives, the participants are
untouched, and every participant whose index was processed is fully sent. -/
theorem sendPhase_inv {C E D : Type} (A : OTAlg C E) (ap : D → C → D)
    (d0 : D) (sys : Sys C E D) (hI : SysInv A ap d0 sys) :
    ∀ k : Nat,
      SysInv A ap d0 ((List.range k).foldl (sendSys A) sys) ∧
      ((List.range k).foldl (sendSys A) sys).peers = sys.peers ∧
      (∀ j, j < k → ∀ pj : PState C E D, sys.peers[j]? = some pj →
        FullySent ((List.range k).foldl (sendSys A) sys).log pj) := by
  intro k
  induction k with
  | zero => exact ⟨hI, rfl, fun j hj => by omega⟩
  | succ k ih =>
      obtain ⟨hIk, hpk, hFk⟩ := ih
      rw [List.range_succ, List.foldl_append, List.foldl_cons, List.foldl_nil]
      refine ⟨sendSys_inv A ap d0 _ k hIk,
        (sendSys_peers A _ k).trans hpk, ?_⟩
      intro j hj pj hxj
      by_cases hjk : j = k
      · subst hjk
        exact sendSys_fullySent A ap d0 _ j pj (by rw [hpk]; exact hxj) hIk
      · have hjlt : j < k := by omega
        exact sendSys_fullySent_ne A ap d0 _ k j pj (by rw [hpk]; exact hxj)
          hjk hIk (hFk j hjlt pj hxj)

/-- The closing receive round: every participant whose index was processed
holds the base document folded through the whole (now constant) log. -/
theorem recvPhase_done {C E D : Type} (A : OTAlg C E) (ap : D → C → D)
    (L : OTLaws A ap) (d0 : D) (sys : Sys C E D)
    (hI : SysInv A ap d0 sys)
    (hall : ∀ (j : Nat) (pj : PState C E D), sys.peers[j]? = some pj → FullySent sys.log pj) :
    ∀ k : Nat,
      SysInv A ap d0 ((List.range k).foldl (recvSys A ap) sys) ∧
      ((List.range k).foldl (recvSys A ap) sys).log = sys.log ∧
      (∀ j, j ≥ k →
        ((List.range k).foldl (recvSys A ap) sys).peers[j]? = sys.peers[j]?) ∧
      (∀ j, j < k → ∀ pj : PState C E D,
        ((List.range k).foldl (recvSys A ap) sys).peers[j]? = some pj →
        pj.doc = applyFold ap d0 (sys.log.map (fun u => u.changes))) := by
  intro k
  induction k with
  | zero =>
      refine ⟨hI, rfl, ?_, ?_⟩
      · intro j hj
        rfl
      · intro j hj
        omega
  | succ k ih =>
      obtain ⟨hIk, hlogk, hgek, hdock⟩ := ih
      rw [List.range_succ, List.foldl_append, List.foldl_cons, List.foldl_nil]
      refine ⟨recvSys_inv A ap L d0 _ k hIk, (recvSys_log A ap _ k).trans hlogk,
        ?_, ?_⟩
      · intro j hj
        rw [recvSys_peers_ne A ap _ k j (by omega)]
        exact hgek j (by omega)
      · intro j hj pj hxj
        by_cases hjk : j = k
        · subst hjk
          cases hxk : sys.peers[j]? with
          | none =>
              exfalso
              set Rk := (List.range j).foldl (recvSys A ap) sys with hRkdef
              have hRk : Rk.peers[j]? = none := by
                rw [hgek j (le_refl j)]
                exact hxk
              have hnoop : recvSys A ap Rk j = Rk := by
                unfold recvSys
                rw [hRk]
              rw [hnoop, hRk] at hxj
              exact Option.noConfusion hxj
          | some p =>
              have hxkk : ((List.range j).foldl (recvSys A ap) sys).peers[j]? =
                  some p := by rw [hgek j (le_refl j)]; exact hxk
              have hFp : FullySent ((List.range j).foldl (recvSys A ap) sys).log p := by
                rw [hlogk]
                exact hall j p hxk
              have := recvSys_finished A ap L d0 _ j p hxkk hIk hFp pj hxj
              rw [hlogk] at this
              exact this
        · have hjlt : j < k := by omega
          rw [recvSys_peers_ne A ap _ k j hjk] at hxj
          exact hdock j hjlt pj hxj

/-- The initial system — empty log, every participant at version 0 with an
empty queue and the shared start document — satisfies the invariant when the
client IDs are pairwise distinct. -/
theorem initSys_inv {C E D : Type} (A : OTAlg C E) (ap : D → C → D)
    (cids : List String) (hnd : cids.Nodup) (d0 : D) :
    SysInv A ap d0 (initSys (C := C) (E := E) cids d0) := by
  constructor
  · have hmm : ((fun p : PState C E D => p.clientID) ∘
        fun cid => ({ clientID := cid, collab := ⟨0, []⟩, doc := d0 } : PState C E D)) =
        fun cid => cid := rfl
    simp only [initSys, List.map_map, hmm]
    simpa using hnd
  · intro i h
    simp only [initSys, List.length_map] at h
    constructor
    · simp [initSys]
    · intro u hu
      simp [initSys, List.getElem_map] at hu
    · simp [initSys, List.getElem_map, applyFold_nil]
    · simp only [initSys, List.getElem_map]
      trivial

/-- The closing receive round keeps the number of participants. -/
theorem recvFold_peers_length {C E D : Type} (A : OTAlg C E) (ap : D → C → D)
    (sys : Sys C E D) : ∀ k : Nat,
    (((List.range k).foldl (recvSys A ap) sys).peers.length) = sys.peers.length := by
  intro k
  induction k with
  | zero => rfl
  | succ k ih =>
      rw [List.range_succ, List.foldl_append, List.foldl_cons, List.foldl_nil,
        recvSys_peers_length]
      exact ih

/-- Claim C1 (convergence): any finite collection of participants that start
from the same document and version 0, perform an arbitrary schedule of local
edits, sends (rebased through `rebaseUpdates` whenever the synced version is
behind the log) and receives (folding contiguous log slices through
`receiveUpdates`), and then close with one send and one receive round each —
so that every update is in the log and every participant has seen the full
log — hold identical document content.  Stated for every implementation of
the external change-script primitives satisfying the spec's correctness
assumptions (`OTLaws`). -/
theorem convergence_protocol {C E D : Type} (A : OTAlg C E) (ap : D → C → D)
    (L : OTLaws A ap) (cids : List String) (hnd : cids.Nodup) (d0 : D)
    (evs : List (Ev C E)) :
    ∀ p1 ∈ (finalSync A ap (runSys A ap (initSys cids d0) evs)).peers,
    ∀ p2 ∈ (finalSync A ap (runSys A ap (initSys cids d0) evs)).peers,
      p1.doc = p2.doc := by
  set sys1 := runSys A ap (initSys cids d0) evs with hsys1
  have hI1 : SysInv A ap d0 sys1 :=
    runSys_inv A ap L d0 _ evs (initSys_inv A ap cids hnd d0)
  obtain ⟨hI2, hpeers2, hsent2⟩ := sendPhase_inv A ap d0 sys1 hI1 sys1.peers.length
  set sys2 := (List.range sys1.peers.length).foldl (sendSys A) sys1 with hsys2
  have hall : ∀ (j : Nat) (pj : PState C E D), sys2.peers[j]? = some pj →
      FullySent sys2.log pj := by
    intro j pj hxj
    rw [hpeers2] at hxj
    have hjlt : j < sys1.peers.length := by
      by_contra hge
      rw [List.getElem?_eq_none (by omega)] at hxj
      exact Option.noConfusion hxj
    exact hsent2 j hjlt pj (by rw [← hxj])
  obtain ⟨hI3, hlog3, hge3, hdoc3⟩ := recvPhase_done A ap L d0 sys2 hI2 hall
    sys2.peers.length
  have hfinal : finalSync A ap sys1 =
      (List.range sys2.peers.length).foldl (recvSys A ap) sys2 := rfl
  intro p1 hp1 p2 hp2
  rw [hfinal] at hp1 hp2
  obtain ⟨i, hi⟩ := List.getElem?_of_mem hp1
  obtain ⟨j, hj⟩ := List.getElem?_of_mem hp2
  have hilt : i < sys2.peers.length := by
    have h := (List.getElem?_eq_some.mp hi).1
    rwa [recvFold_peers_length] at h
  have hjlt : j < sys2.peers.length := by
    have h := (List.getElem?_eq_some.mp hj).1
    rwa [recvFold_peers_length] at h
  have h1 := hdoc3 i hilt p1 hi
  have h2 := hdoc3 j hjlt p2 hj
  rw [h1, h2]

/-- The numeric instance satisfies the correctness laws of the external
primitives. -/
theorem natAlg_laws : OTLaws natAlg natAp := by
  constructor
  · intro d a b
    simp [natAlg, natAp]
    omega
  · intro d f c
    simp [natAlg, natAp]
    omega
  · intro d c h
    simp only [natAlg, Nat.beq_eq_true_eq] at h
    simp [natAp, h]

/-- Witness for C1: two participants with interleaved concrete edits, sends
and receives (including a rebased late send) reach this concrete final state,
and the convergence theorem applied to the two concrete participants equates
their documents. -/
theorem convergence_protocol_witness :
    (finalSync natAlg natAp (runSys natAlg natAp (initSys ["a", "b"] 0)
        [Ev.edit 0 0 1 [], Ev.edit 1 1 2 [], Ev.send 0, Ev.send 1,
         Ev.recv 0, Ev.edit 0 2 3 [], Ev.send 0])).peers =
      [⟨"a", ⟨3, []⟩, 6⟩, ⟨"b", ⟨3, []⟩, 6⟩] ∧
    (PState.mk "a" ⟨3, []⟩ 6 : PState Nat Unit Nat).doc =
      (PState.mk "b" ⟨3, []⟩ 6 : PState Nat Unit Nat).doc :=
  ⟨by decide,
   convergence_protocol natAlg natAp natAlg_laws ["a", "b"] (by decide) 0
     [Ev.edit 0 0 1 [], Ev.edit 1 1 2 [], Ev.send 0, Ev.send 1,
      Ev.recv 0, Ev.edit 0 2 3 [], Ev.send 0]
     ⟨"a", ⟨3, []⟩, 6⟩ (by decide) ⟨"b", ⟨3, []⟩, 6⟩ (by decide)⟩

/-- Witness for C8: an empty transaction leaves the state untouched, and a
transaction with a non-empty change script appends one local update. -/
theorem collabField_capture_witness :
    collabFieldUpdate symAlg "a" ⟨3, []⟩ ⟨7, SymC.base "", [], none⟩ = ⟨3, []⟩ ∧
    collabFieldUpdate symAlg "a" ⟨3, []⟩ ⟨7, SymC.base "c", [], none⟩ =
      ⟨3, [⟨7, SymC.base "c", [], "a"⟩]⟩ := by
  constructor
  · exact (collabField_capture symAlg "a" ⟨3, []⟩ ⟨7, SymC.base "", [], none⟩
      (by decide)).1 (by decide) (by decide)
  · have h := (collabField_capture symAlg "a" ⟨3, []⟩ ⟨7, SymC.base "c", [], none⟩
      (by decide)).2 (by decide)
    exact h.trans (by decide)

end Collab
